import Mathlib

/-!
# The ZFX line assembler (`ZFX/assembler/Assembler.cpp`)

A shallow embedding of `struct Assembler` and `assemble_program`.

* The `SIMDBuilder` is an append-only byte encoder whose implementation lives in
  `assembler/SIMDBuilder.h`; the assembler only ever *calls* it, so the builder is
  represented by the ordered log of the calls it received (`Call`).
* The helpers of `common.h` (`split_str`, `from_string<int>`) and the size queries of the
  builder (`scalarSizeOfType`, `sizeOfType`) together with the constant `optype::xmmps`
  are collected in `Env`; every general theorem holds for all of them.
* `error(...)` is fatal: it ends the assembly, which is the `Except.error` result.
* `linesep[i]` on a `std::vector` with `i >= size()` is an out-of-bounds read; the
  embedding reports it as the separate outcome `Fault.outOfBounds`.
* C++ `int` is 32 bits wide. The only arithmetic of the assembler is the addition of an
  element size to a running offset (`constoffset`, `symoffset`); its result is reduced
  to the 32-bit two's complement range by `wrapInt`, so a sum past 2147483647 comes out
  negative as it does in the compiled code.
-/

namespace ZFX

/-! ## Encoder interface -/

/-- General purpose registers named by the assembler (`opreg::`). -/
inductive opreg where
  | rax
  | rcx
  | rdx
  deriving DecidableEq, Repr

/-- Addressing modes named by the assembler (`memflag::`). -/
inductive memflag where
  | reg_imm8
  deriving DecidableEq, Repr

/-- Operation selectors named by the assembler (`opcode::`). -/
inductive opcode where
  | loadu
  | storeu
  | add
  | sub
  | mul
  | div
  deriving DecidableEq, Repr

/-- The braced memory operand `{base, flag, offset}` handed to the encoder. -/
structure MemoryAddress where
  adr : opreg
  mflag : memflag
  immadr : Int
  deriving DecidableEq, Repr

/-- One call received by the `SIMDBuilder`, with its arguments in source order. -/
inductive Call where
  | addAvxBroadcastLoadOp (type : Int) (val : Int) (adr : MemoryAddress)
  | addRegularLoadOp (val : opreg) (adr : MemoryAddress)
  | addAvxMemoryOp (type : Int) (op : opcode) (val : Int) (adr : opreg)
  | addAvxBinaryOp (type : Int) (op : opcode) (dst : Int) (lhs : Int) (rhs : Int)
  | addAvxMoveOp (dst : Int) (src : Int)
  | addReturn
  deriving DecidableEq, Repr

/-- The range of the C++ type `int`, 32 bits wide in two's complement. -/
def inIntRange (x : Int) : Prop := -2147483648 ≤ x ∧ x ≤ 2147483647

/-- The value an `int` holds after a sum `x` is stored in it: `x` reduced modulo `2^32`
to the range from -2147483648 to 2147483647. -/
def wrapInt (x : Int) : Int := (x + 2147483648) % 4294967296 - 2147483648

/-- The parts of the repository the assembler relies on but does not define:
`split_str` and `from_string<int>` (`common.h`), the two size queries of `SIMDBuilder`,
the default kind `optype::xmmps`, and `SIMDBuilder::getResult`, the byte stream the
builder has produced for the calls it received. The two size queries report byte sizes,
which are values of the type `int` they are added to. -/
structure Env where
  split_str : String → Char → List String
  from_string : String → Int
  scalarSizeOfType : Int → Int
  sizeOfType : Int → Int
  xmmps : Int
  getResult : List Call → List Nat
  scalarSizeOfType_int : ∀ type, inIntRange (scalarSizeOfType type)
  sizeOfType_int : ∀ type, inIntRange (sizeOfType type)

/-! ## Tables (`std::map<std::string, int>`) -/

/-- A `std::map<std::string, int>`, as the list of its entries in insertion order. -/
abbrev Table := List (String × Int)

/-- The member `find`: the value stored under `key`, `none` standing for `end()`. -/
def Table.find : Table → String → Option Int
  | [], _ => none
  | (k, v) :: t, key => if k = key then some v else Table.find t key

/-- The assignment `table[key] = value`: overwrites the entry of `key` when there is one,
inserts a new entry otherwise. -/
def Table.assign : Table → String → Int → Table
  | [], key, value => [(key, value)]
  | (k, v) :: t, key, value =>
    if k = key then (k, value) :: t else (k, v) :: Table.assign t key value

/-! ## Assembler state -/

/-- The fields of `struct Assembler`; `builder` is the log of encoder calls so far. -/
structure Assembler where
  simdkind : Int
  builder : List Call
  symtable : Table
  consttable : Table
  constoffset : Int
  symoffset : Int
  deriving DecidableEq, Repr

/-- A default-constructed `Assembler`, as `assemble_program` creates it. -/
def Assembler.fresh (env : Env) : Assembler :=
  { simdkind := env.xmmps, builder := [], symtable := [], consttable := [],
    constoffset := 0, symoffset := 0 }

/-- Ways in which `parse` does not complete normally. -/
inductive Fault where
  /-- The macro `ERROR_IF(x)` fired: `error("Assertion ... failed", #x)`. -/
  | assertion (cond : String)
  /-- The call `error("bad assembly command ...", cmd)` of the last branch. -/
  | badCommand (cmd : String)
  /-- The access `linesep[index]` was evaluated on a vector of `size <= index` elements. -/
  | outOfBounds (index : Nat) (size : Nat)
  deriving DecidableEq, Repr

/-- The method `Assembler::lookup_constant_offset`: the returned offset and the updated
state. -/
def lookup_constant_offset (env : Env) (s : Assembler) (expr : String) : Int × Assembler :=
  match s.consttable.find expr with
  | some v => (v, s)
  | none =>
    let offset := s.constoffset
    (offset, { s with
      constoffset := wrapInt (s.constoffset + env.scalarSizeOfType s.simdkind)
      consttable := s.consttable.assign expr offset })

/-- The method `Assembler::lookup_symbol_offset`: the returned offset and the updated
state. -/
def lookup_symbol_offset (env : Env) (s : Assembler) (sym : String) : Int × Assembler :=
  match s.symtable.find sym with
  | some v => (v, s)
  | none =>
    let offset := s.symoffset
    (offset, { s with
      symoffset := wrapInt (s.symoffset + env.sizeOfType s.simdkind)
      symtable := s.symtable.assign sym offset })

/-- The macro `ERROR_IF(x)`: a fatal error quoting the condition when it holds. -/
def ERROR_IF (x : Bool) (text : String) : Except Fault Unit :=
  if x then .error (.assertion text) else .ok ()

/-- The element access `linesep[i]`. -/
def tokenAt (linesep : List String) (i : Nat) : Except Fault String :=
  match linesep.get? i with
  | some t => .ok t
  | none => .error (.outOfBounds i linesep.length)

/-- A builder call: appends to the log held in the state. -/
def Assembler.emit (s : Assembler) (c : Call) : Assembler :=
  { s with builder := s.builder ++ [c] }

/-- The three-register branches `add`, `sub`, `mul`, `div` of `parse`, which differ only
in the opcode handed to `addAvxBinaryOp`. -/
def parseBinary (env : Env) (s : Assembler) (linesep : List String) (op : opcode) :
    Except Fault Assembler := do
  ERROR_IF (linesep.length < 3) "linesep.size() < 3"
  let dst := env.from_string (← tokenAt linesep 1)
  let lhs := env.from_string (← tokenAt linesep 2)
  let rhs := env.from_string (← tokenAt linesep 3)
  pure (s.emit (.addAvxBinaryOp s.simdkind op dst lhs rhs))

/-- The body of the `for` loop of `Assembler::parse`, for one line. -/
def parseLine (env : Env) (s : Assembler) (line : String) : Except Fault Assembler :=
  if line.length = 0 then pure s else do
    let linesep := env.split_str line ' '
    ERROR_IF (linesep.length < 1) "linesep.size() < 1"
    let cmd ← tokenAt linesep 0
    if cmd = "ldi" then
      ERROR_IF (linesep.length < 2) "linesep.size() < 2"
      let dst := env.from_string (← tokenAt linesep 1)
      let (offset, s1) := lookup_constant_offset env s (← tokenAt linesep 2)
      pure (s1.emit (.addAvxBroadcastLoadOp s1.simdkind dst ⟨.rcx, .reg_imm8, offset⟩))
    else if cmd = "lds" then
      ERROR_IF (linesep.length < 2) "linesep.size() < 2"
      let dst := env.from_string (← tokenAt linesep 1)
      let (offset, s1) := lookup_symbol_offset env s (← tokenAt linesep 2)
      let s2 := s1.emit (.addRegularLoadOp .rax ⟨.rdx, .reg_imm8, offset⟩)
      pure (s2.emit (.addAvxMemoryOp s2.simdkind .loadu dst .rax))
    else if cmd = "sts" then
      ERROR_IF (linesep.length < 2) "linesep.size() < 2"
      let dst := env.from_string (← tokenAt linesep 1)
      let (offset, s1) := lookup_symbol_offset env s (← tokenAt linesep 2)
      let s2 := s1.emit (.addRegularLoadOp .rax ⟨.rdx, .reg_imm8, offset⟩)
      pure (s2.emit (.addAvxMemoryOp s2.simdkind .storeu dst .rax))
    else if cmd = "add" then parseBinary env s linesep .add
    else if cmd = "sub" then parseBinary env s linesep .sub
    else if cmd = "mul" then parseBinary env s linesep .mul
    else if cmd = "div" then parseBinary env s linesep .div
    else if cmd = "mov" then
      ERROR_IF (linesep.length < 2) "linesep.size() < 2"
      let dst := env.from_string (← tokenAt linesep 1)
      let src := env.from_string (← tokenAt linesep 2)
      pure (s.emit (.addAvxMoveOp dst src))
    else
      throw (.badCommand cmd)

/-- The `for` loop of `Assembler::parse` over the lines already split off. -/
def parseLines (env : Env) (s : Assembler) : List String → Except Fault Assembler
  | [] => pure s
  | line :: rest => do
    let s1 ← parseLine env s line
    parseLines env s1 rest

/-- The method `Assembler::parse`: the lines are split off at the line breaks and
processed in order. -/
def parse (env : Env) (s : Assembler) (lines : String) : Except Fault Assembler :=
  parseLines env s (env.split_str lines '\n')

/-- The value `assemble_program` returns: the instance built from the byte stream. -/
structure ExecutableInstance where
  insts : List Nat
  deriving DecidableEq, Repr

/-- The function `assemble_program`: the calls the builder received and the returned
instance.
The hexadecimal dump printed before returning is not represented. -/
def assemble_program (env : Env) (lines : String) :
    Except Fault (List Call × ExecutableInstance) := do
  let assembler ← parse env (Assembler.fresh env) lines
  let assembler := assembler.emit .addReturn
  let insts := env.getResult assembler.builder
  pure (assembler.builder, ⟨insts⟩)

/-! ## Reference environment -/

/-- Splits a character list at every occurrence of `delimiter`; `cur` holds the
characters of the piece being read, in reverse. -/
def splitChars (delimiter : Char) : List Char → List Char → List String
  | [], cur => [String.mk cur.reverse]
  | c :: cs, cur =>
    if c = delimiter then String.mk cur.reverse :: splitChars delimiter cs []
    else splitChars delimiter cs (c :: cur)

/-- Modelled from the spec: `split_str` of `common.h`, which `Assembler.cpp` only calls;
the spec has one instruction per line and the tokens of a line separated by spaces, so the
text is cut at every occurrence of the delimiter. -/
def refSplit (s : String) (delimiter : Char) : List String :=
  splitChars delimiter s.data []

/-- The value of a run of decimal digits, read left to right onto `acc`; reading stops
at the first character that is not a digit. -/
def readDigits : List Char → Nat → Nat
  | [], acc => acc
  | c :: cs, acc =>
    if c.isDigit then readDigits cs (10 * acc + (c.toNat - 48)) else acc

/-- Modelled from the spec: `from_string<int>` of `common.h`, which `Assembler.cpp` only
calls; the spec has register operands written as small non-negative integers that are
taken verbatim, so the token is read as a decimal number. -/
def refFromString (s : String) : Int :=
  match s.data with
  | '-' :: cs => - (readDigits cs 0 : Int)
  | cs => (readDigits cs 0 : Int)

/-- Modelled from the spec: the collaborators of the assembler (`common.h` and
`SIMDBuilder.h`) for the default vector kind, 4-wide single precision: a scalar takes
4 bytes and a full vector group 16. The bytes of the encoder are left out (`getResult`
yields none). -/
def refEnv : Env :=
  { split_str := refSplit
    from_string := refFromString
    scalarSizeOfType := fun _ => 4
    sizeOfType := fun _ => 16
    xmmps := 0
    getResult := fun _ => []
    scalarSizeOfType_int := fun _ => (show inIntRange 4 from ⟨by decide, by decide⟩)
    sizeOfType_int := fun _ => (show inIntRange 16 from ⟨by decide, by decide⟩) }

/-! ## Drivers and specification-side notions -/

/-- A sequence of `lookup_constant_offset` calls, one per element of the list, in order:
the offsets returned and the state left behind. -/
def lookup_constants (env : Env) (s : Assembler) : List String → List Int × Assembler
  | [] => ([], s)
  | e :: es =>
    let r := lookup_constant_offset env s e
    let rs := lookup_constants env r.2 es
    (r.1 :: rs.1, rs.2)

/-- The distinct strings of a list, in the order of their first occurrence. -/
def firstSeen : List String → List String
  | [] => []
  | e :: es => e :: (firstSeen es).filter (fun x => x ≠ e)

/-- The symbol name a line refers to: token 2 of a non-empty line whose command is `lds`
or `sts`. -/
def symbolRef (env : Env) (line : String) : Option String :=
  if line.length = 0 then none else
    match env.split_str line ' ' with
    | cmd :: _ :: x :: _ => if cmd = "lds" ∨ cmd = "sts" then some x else none
    | _ => none

/-- The symbol names of the `lds` and `sts` lines of a program, both opcodes together, in
textual order. -/
def symbolRefs (env : Env) (lines : String) : List String :=
  (env.split_str lines '\n').filterMap (symbolRef env)

/-- The constant expression a line refers to: token 2 of a non-empty `ldi` line. -/
def constantRef (env : Env) (line : String) : Option String :=
  if line.length = 0 then none else
    match env.split_str line ' ' with
    | cmd :: _ :: x :: _ => if cmd = "ldi" then some x else none
    | _ => none

/-- The constant expressions of the `ldi` lines of a program, in textual order. -/
def constantRefs (env : Env) (lines : String) : List String :=
  (env.split_str lines '\n').filterMap (constantRef env)

/-- The displacement of the call that reads a symbol pointer: the `reg_imm8` operand of
`addRegularLoadOp`. -/
def Call.symbolDisp : Call → Option Int
  | .addRegularLoadOp _ adr => some adr.immadr
  | _ => none

/-- The displacement of the call that reads a constant: the `reg_imm8` operand of
`addAvxBroadcastLoadOp`. -/
def Call.constantDisp : Call → Option Int
  | .addAvxBroadcastLoadOp _ _ adr => some adr.immadr
  | _ => none

/-- The displacement a call hands to the encoder under the `reg_imm8` addressing mode,
when it has a memory operand of that mode. -/
def Call.imm8Disp : Call → Option Int
  | .addAvxBroadcastLoadOp _ _ adr =>
    match adr.mflag with
    | .reg_imm8 => some adr.immadr
  | .addRegularLoadOp _ adr =>
    match adr.mflag with
    | .reg_imm8 => some adr.immadr
  | _ => none

/-! ## Notions used by the proofs and by the statements -/

/-- One lookup on a table and its next free offset, for elements of `size` bytes:
the way `lookup_constant_offset` and `lookup_symbol_offset` act on their own two fields. -/
def allocate (size : Int) (st : Table × Int) (key : String) : Int × (Table × Int) :=
  match st.1.find key with
  | some v => (v, st)
  | none => (st.2, (st.1.assign key st.2, wrapInt (st.2 + size)))

/-- A run of `allocate`, in order. -/
def allocateAll (size : Int) (st : Table × Int) : List String → List Int × (Table × Int)
  | [] => ([], st)
  | e :: es =>
    let r := allocate size st e
    let rs := allocateAll size r.2 es
    (r.1 :: rs.1, rs.2)

/-- The table that stores `keys`, in order, at consecutive multiples of `size` starting
with the multiple `base`, each reduced to the range of `int`. -/
def layoutFrom (size : Int) : Nat → List String → Table
  | _, [] => []
  | base, k :: ks => (k, wrapInt ((base : Int) * size)) :: layoutFrom size (base + 1) ks

/-- The list of strings seen so far, after one more string is met. -/
def noteSeen (ks : List String) (e : String) : List String :=
  if e ∈ ks then ks else ks ++ [e]

/-- The mnemonics of the three-register instructions with the opcode each one selects. -/
def binaryOps : List (String × opcode) :=
  [("add", .add), ("sub", .sub), ("mul", .mul), ("div", .div)]

/-- The successful runs of the loop body: `LineStep env s line s1` lists, branch by
branch, the shapes of a line on which `parseLine` completes and the state it leaves. -/
inductive LineStep (env : Env) (s : Assembler) (line : String) : Assembler → Prop where
  | blank (h : line.length = 0) : LineStep env s line s
  | ldi (d x : String) (rest : List String) (h : line.length ≠ 0)
      (hs : env.split_str line ' ' = "ldi" :: d :: x :: rest) :
      LineStep env s line
        ((lookup_constant_offset env s x).2.emit
          (.addAvxBroadcastLoadOp s.simdkind (env.from_string d)
            ⟨.rcx, .reg_imm8, (lookup_constant_offset env s x).1⟩))
  | lds (d x : String) (rest : List String) (h : line.length ≠ 0)
      (hs : env.split_str line ' ' = "lds" :: d :: x :: rest) :
      LineStep env s line
        (((lookup_symbol_offset env s x).2.emit
          (.addRegularLoadOp .rax ⟨.rdx, .reg_imm8, (lookup_symbol_offset env s x).1⟩)).emit
          (.addAvxMemoryOp s.simdkind .loadu (env.from_string d) .rax))
  | sts (d x : String) (rest : List String) (h : line.length ≠ 0)
      (hs : env.split_str line ' ' = "sts" :: d :: x :: rest) :
      LineStep env s line
        (((lookup_symbol_offset env s x).2.emit
          (.addRegularLoadOp .rax ⟨.rdx, .reg_imm8, (lookup_symbol_offset env s x).1⟩)).emit
          (.addAvxMemoryOp s.simdkind .storeu (env.from_string d) .rax))
  | binary (m : String) (op : opcode) (d l r : String) (rest : List String)
      (h : line.length ≠ 0) (hm : (m, op) ∈ binaryOps)
      (hs : env.split_str line ' ' = m :: d :: l :: r :: rest) :
      LineStep env s line
        (s.emit (.addAvxBinaryOp s.simdkind op (env.from_string d) (env.from_string l)
          (env.from_string r)))
  | mov (d x : String) (rest : List String) (h : line.length ≠ 0)
      (hs : env.split_str line ' ' = "mov" :: d :: x :: rest) :
      LineStep env s line (s.emit (.addAvxMoveOp (env.from_string d) (env.from_string x)))

/-- The program of the arithmetic scenario, one instruction per line. -/
def arithmeticProgram : String := "ldi 0 2.0\nldi 1 3.0\nadd 2 0 1\nsts 2 out"

/-- The mnemonics `parse` recognises. -/
def mnemonics : List String := ["ldi", "lds", "sts", "add", "sub", "mul", "div", "mov"]

/-- The mnemonics of the instructions with two operands. -/
def twoOperandMnemonics : List String := ["ldi", "lds", "sts", "mov"]

/-- A program that loads `x`, loads `y`, and stores to `x` again. -/
def loadStoreProgram : String := "lds 0 x\nlds 1 y\nadd 0 0 1\nsts 0 x"

/-- Nine `lds` lines on nine distinct symbol names. -/
def nineSymbolProgram : String :=
  "lds 0 a\nlds 0 b\nlds 0 c\nlds 0 d\nlds 0 e\nlds 0 f\nlds 0 g\nlds 0 h\nlds 0 i"

/-- Eight `lds` lines on eight distinct symbol names. -/
def eightSymbolProgram : String :=
  "lds 0 a\nlds 0 b\nlds 0 c\nlds 0 d\nlds 0 e\nlds 0 f\nlds 0 g\nlds 0 h"

/-- The letter that stands for a binary digit: `a` for 0 and `b` for 1. -/
def digitChar (d : Nat) : Char := if d = 0 then 'a' else 'b'

/-- The characters of the name number `i`: the binary digits of `i + 1`, lowest first,
written with the letters `a` and `b`. A name has at most 30 letters for `i < 2^30`. -/
def nameChars (i : Nat) : List Char := (Nat.digits 2 (i + 1)).map digitChar

/-- The name number `i`; different numbers have different names. -/
def distinctName (i : Nat) : String := String.mk (nameChars i)

/-- The first `n` of the names `b`, `ab`, `bb`, `aab`, ... -/
def distinctNames (n : Nat) : List String := (List.range n).map distinctName

/-- The characters of the line `lds 0 x`, for `x` the name number `i`. -/
def loadLine (i : Nat) : List Char :=
  'l' :: 'd' :: 's' :: ' ' :: '0' :: ' ' :: nameChars i

/-- The text whose lines are the given ones: a line break between each two of them. -/
def joinLines : List (List Char) → List Char
  | [] => []
  | [l] => l
  | l :: l2 :: ls => l ++ '\n' :: joinLines (l2 :: ls)

/-- The program of `n` lines `lds 0 b`, `lds 0 ab`, `lds 0 bb`, ..., each loading through
a symbol name of its own. -/
def manyLoads (n : Nat) : String := String.mk (joinLines ((List.range n).map loadLine))

/-! ## Tables: basic facts -/

theorem Table.find_assign_self (t : Table) (key : String) (value : Int) :
    (t.assign key value).find key = some value := by
  induction t with
  | nil => simp [Table.assign, Table.find]
  | cons p t ih =>
    obtain ⟨k, v⟩ := p
    by_cases h : k = key
    · simp [Table.assign, Table.find, h]
    · simp [Table.assign, Table.find, h, ih]

theorem Table.find_assign_of_ne (t : Table) (key other : String) (value : Int)
    (h : key ≠ other) : (t.assign key value).find other = t.find other := by
  induction t with
  | nil => simp [Table.assign, Table.find, h]
  | cons p t ih =>
    obtain ⟨k, v⟩ := p
    by_cases hk : k = key
    · subst hk
      simp [Table.assign, Table.find, h]
    · by_cases ho : k = other
      · subst ho
        simp [Table.assign, Table.find, hk]
      · simp [Table.assign, Table.find, hk, ho, ih]

theorem Table.assign_of_find_none (t : Table) (key : String) (value : Int)
    (h : t.find key = none) : t.assign key value = t ++ [(key, value)] := by
  induction t with
  | nil => simp [Table.assign]
  | cons p t ih =>
    obtain ⟨k, v⟩ := p
    by_cases hk : k = key
    · simp [Table.find, hk] at h
    · simp only [Table.find, hk, if_false] at h
      simp [Table.assign, hk, ih h]

/-- Entries survive a lookup of any string: nothing is removed or overwritten. -/
theorem lookup_constant_offset_find_mono (env : Env) (s : Assembler) (e key : String)
    (v : Int) (h : s.consttable.find key = some v) :
    (lookup_constant_offset env s e).2.consttable.find key = some v := by
  unfold lookup_constant_offset
  cases he : s.consttable.find e with
  | some w => simpa using h
  | none =>
    have hne : e ≠ key := by
      rintro rfl
      rw [he] at h
      cases h
    simpa [Table.find_assign_of_ne _ _ _ _ hne] using h

theorem lookup_constants_find_mono (env : Env) (es : List String) :
    ∀ (s : Assembler) (key : String) (v : Int), s.consttable.find key = some v →
      (lookup_constants env s es).2.consttable.find key = some v := by
  induction es with
  | nil => intro s key v h; simpa [lookup_constants] using h
  | cons e es ih =>
    intro s key v h
    simp only [lookup_constants]
    exact ih _ key v (lookup_constant_offset_find_mono env s e key v h)

/-- A string that has an entry is resolved to it and the state is left alone. -/
theorem lookup_constant_offset_of_find (env : Env) (s : Assembler) (e : String) (v : Int)
    (h : s.consttable.find e = some v) : lookup_constant_offset env s e = (v, s) := by
  simp [lookup_constant_offset, h]

/-- After a lookup the string has an entry, holding the offset returned. -/
theorem lookup_constant_offset_find_self (env : Env) (s : Assembler) (e : String) :
    (lookup_constant_offset env s e).2.consttable.find e
      = some (lookup_constant_offset env s e).1 := by
  unfold lookup_constant_offset
  cases he : s.consttable.find e with
  | some w => simpa using he
  | none => simp [Table.find_assign_self]

/-! ## Sequential allocation

Both lookups are the same allocator, run on a table and its running offset with the
element size of the table. -/

theorem lookup_constant_offset_eq_allocate (env : Env) (s : Assembler) (e : String) :
    lookup_constant_offset env s e
      = ((allocate (env.scalarSizeOfType s.simdkind) (s.consttable, s.constoffset) e).1,
         { s with
           consttable :=
             (allocate (env.scalarSizeOfType s.simdkind) (s.consttable, s.constoffset) e).2.1
           constoffset :=
             (allocate (env.scalarSizeOfType s.simdkind) (s.consttable, s.constoffset) e).2.2
         }) := by
  unfold lookup_constant_offset allocate
  cases s.consttable.find e <;> rfl

theorem lookup_symbol_offset_eq_allocate (env : Env) (s : Assembler) (e : String) :
    lookup_symbol_offset env s e
      = ((allocate (env.sizeOfType s.simdkind) (s.symtable, s.symoffset) e).1,
         { s with
           symtable := (allocate (env.sizeOfType s.simdkind) (s.symtable, s.symoffset) e).2.1
           symoffset := (allocate (env.sizeOfType s.simdkind) (s.symtable, s.symoffset) e).2.2
         }) := by
  unfold lookup_symbol_offset allocate
  cases s.symtable.find e <;> rfl

theorem layoutFrom_length (size : Int) (ks : List String) :
    ∀ base, (layoutFrom size base ks).length = ks.length := by
  induction ks with
  | nil => intro base; rfl
  | cons k ks ih => intro base; simp [layoutFrom, ih]

theorem layoutFrom_keys (size : Int) (ks : List String) :
    ∀ base, (layoutFrom size base ks).map Prod.fst = ks := by
  induction ks with
  | nil => intro base; rfl
  | cons k ks ih => intro base; simp [layoutFrom, ih]

theorem wrapInt_of_inIntRange (x : Int) (h : inIntRange x) : wrapInt x = x := by
  unfold inIntRange at h
  unfold wrapInt
  omega

theorem wrapInt_add_left (a b : Int) : wrapInt (wrapInt a + b) = wrapInt (a + b) := by
  unfold wrapInt
  omega

theorem wrapInt_zero : wrapInt 0 = 0 := by decide

theorem layoutFrom_values (size : Int) (ks : List String) :
    ∀ base, (layoutFrom size base ks).map Prod.snd
      = (List.range ks.length).map (fun i => wrapInt (((base + i : Nat) : Int) * size)) := by
  induction ks with
  | nil => intro base; rfl
  | cons k ks ih =>
    intro base
    simp only [layoutFrom, List.map_cons, List.length_cons, List.range_succ_eq_map, ih,
      List.map_map]
    refine congrArg₂ _ (by simp) (List.map_congr_left ?_)
    intro i _
    simp only [Function.comp]
    have : base + 1 + i = base + i.succ := by omega
    rw [this]

theorem layoutFrom_append (size : Int) (ks : List String) (e : String) :
    ∀ base, layoutFrom size base (ks ++ [e])
      = layoutFrom size base ks
        ++ [(e, wrapInt (((base + ks.length : Nat) : Int) * size))] := by
  induction ks with
  | nil => intro base; simp [layoutFrom]
  | cons k ks ih =>
    intro base
    have : base + 1 + ks.length = base + (ks.length + 1) := by omega
    rw [List.cons_append, layoutFrom, ih, List.length_cons, this]
    rfl

theorem find_layoutFrom_of_not_mem (size : Int) (ks : List String) (e : String)
    (h : e ∉ ks) : ∀ base, (layoutFrom size base ks).find e = none := by
  induction ks with
  | nil => intro base; rfl
  | cons k ks ih =>
    intro base
    have hk : k ≠ e := fun hk => h (by simp [hk])
    have he : e ∉ ks := fun he => h (by simp [he])
    simp [layoutFrom, Table.find, hk, ih he]

theorem find_layoutFrom_of_mem (size : Int) (ks : List String) (e : String)
    (h : e ∈ ks) : ∀ base, (layoutFrom size base ks).find e
      = some (wrapInt (((base + ks.indexOf e : Nat) : Int) * size)) := by
  induction ks with
  | nil => cases h
  | cons k ks ih =>
    intro base
    by_cases hk : k = e
    · subst hk
      simp [layoutFrom, Table.find]
    · have he : e ∈ ks := by
        rcases List.mem_cons.1 h with h1 | h1
        · exact absurd h1.symm hk
        · exact h1
      simp only [layoutFrom, Table.find, hk, if_false, ih he, List.indexOf_cons_ne _ hk]
      have : base + 1 + List.indexOf e ks = base + (List.indexOf e ks).succ := by omega
      rw [this]

/-- One lookup on a laid-out table: the offset is the position of the string among the
strings seen, times the size, as an `int`, and the table stays laid out. -/
theorem allocate_layout (size : Int) (ks : List String) (e : String) :
    allocate size (layoutFrom size 0 ks, wrapInt ((ks.length : Int) * size)) e
      = (wrapInt ((((noteSeen ks e).indexOf e : Nat) : Int) * size),
         (layoutFrom size 0 (noteSeen ks e),
          wrapInt (((noteSeen ks e).length : Int) * size))) := by
  unfold allocate noteSeen
  by_cases h : e ∈ ks
  · simp [find_layoutFrom_of_mem size ks e h, h]
  · have hidx : (ks ++ [e]).indexOf e = ks.length := by
      rw [List.indexOf_append_of_not_mem h]
      simp
    simp only [find_layoutFrom_of_not_mem size ks e h, h, if_false, hidx,
      Table.assign_of_find_none _ _ _ (find_layoutFrom_of_not_mem size ks e h 0),
      layoutFrom_append, List.length_append, List.length_singleton, Nat.zero_add,
      wrapInt_add_left]
    refine Prod.ext rfl (Prod.ext rfl ?_)
    simp only [Nat.cast_add, Nat.cast_one]
    congr 1
    ring

theorem noteSeen_foldl_append (es : List String) :
    ∀ ks, ∃ more, es.foldl noteSeen ks = ks ++ more := by
  induction es with
  | nil => intro ks; exact ⟨[], by simp⟩
  | cons e es ih =>
    intro ks
    obtain ⟨more, hm⟩ := ih (noteSeen ks e)
    by_cases h : e ∈ ks
    · exact ⟨more, by simpa [noteSeen, h] using hm⟩
    · exact ⟨e :: more, by simpa [noteSeen, h] using hm⟩

theorem mem_noteSeen (ks : List String) (e : String) : e ∈ noteSeen ks e := by
  unfold noteSeen
  by_cases h : e ∈ ks <;> simp [h]

/-- The position of a string already seen does not change when more strings are met. -/
theorem indexOf_noteSeen_foldl (es : List String) (ks : List String) (e : String)
    (h : e ∈ ks) : (es.foldl noteSeen ks).indexOf e = ks.indexOf e := by
  obtain ⟨more, hm⟩ := noteSeen_foldl_append es ks
  rw [hm, List.indexOf_append_of_mem h]

/-- A run of lookups on a laid-out table. -/
theorem allocateAll_layout (size : Int) (es : List String) :
    ∀ ks, allocateAll size (layoutFrom size 0 ks, wrapInt ((ks.length : Int) * size)) es
      = (es.map (fun e => wrapInt ((((es.foldl noteSeen ks).indexOf e : Nat) : Int) * size)),
         (layoutFrom size 0 (es.foldl noteSeen ks),
          wrapInt (((es.foldl noteSeen ks).length : Int) * size))) := by
  induction es with
  | nil => intro ks; rfl
  | cons e es ih =>
    intro ks
    simp only [allocateAll, allocate_layout, ih, List.map_cons, List.foldl_cons,
      indexOf_noteSeen_foldl es _ e (mem_noteSeen ks e)]

/-- Meeting the strings one after the other collects them in first-seen order. -/
theorem noteSeen_foldl_eq (es : List String) :
    ∀ ks, es.foldl noteSeen ks = ks ++ (firstSeen es).filter (fun x => x ∉ ks) := by
  induction es with
  | nil => intro ks; simp [firstSeen]
  | cons e es ih =>
    intro ks
    simp only [List.foldl_cons, ih, firstSeen]
    by_cases h : e ∈ ks
    · simp only [noteSeen, h, if_true, List.filter_cons, not_true_eq_false, decide_False,
        List.filter_filter]
      congr 1
      apply List.filter_congr
      intro x _
      by_cases hx : x ∈ ks
      · simp [hx]
      · have : x ≠ e := fun hxe => hx (hxe ▸ h)
        simp [hx, this]
    · simp only [noteSeen, h, if_false, List.filter_cons, not_false_eq_true, decide_True,
        if_true, List.append_assoc, List.singleton_append, List.filter_filter]
      congr 2
      apply List.filter_congr
      intro x _
      by_cases hx : x ∈ ks <;> by_cases hxe : x = e <;> simp [hx, hxe]

theorem mem_firstSeen (es : List String) (x : String) : x ∈ firstSeen es ↔ x ∈ es := by
  induction es with
  | nil => simp [firstSeen]
  | cons e es ih =>
    by_cases hx : x = e
    · simp [firstSeen, hx]
    · simp [firstSeen, hx, List.mem_filter, ih]

theorem nodup_firstSeen (es : List String) : (firstSeen es).Nodup := by
  induction es with
  | nil => simp [firstSeen]
  | cons e es ih =>
    rw [firstSeen, List.nodup_cons]
    exact ⟨by simp [List.mem_filter], ih.filter _⟩

theorem noteSeen_foldl_nil (es : List String) : es.foldl noteSeen [] = firstSeen es := by
  simp [noteSeen_foldl_eq]

/-! ## C3 -/

/-- C3: `lookup_constant_offset` is idempotent. When a call on `e` from state `s` returns
offset `o` and leaves state `s1`, then after any further lookups `between` (possibly none)
a call on `e` returns the same `o` and changes nothing: the whole state, in particular
`consttable` and `constoffset`, is the one it was called on. -/
theorem C3_lookup_constant_offset_idempotent (env : Env) (s : Assembler) (e : String)
    (between : List String) :
    lookup_constant_offset env
        (lookup_constants env (lookup_constant_offset env s e).2 between).2 e
      = ((lookup_constant_offset env s e).1,
         (lookup_constants env (lookup_constant_offset env s e).2 between).2) :=
  lookup_constant_offset_of_find env _ e _
    (lookup_constants_find_mono env between _ e _ (lookup_constant_offset_find_self env s e))

/-! ## C4 -/

theorem lookup_constants_eq_allocateAll (env : Env) (es : List String) :
    ∀ s : Assembler, lookup_constants env s es
      = ((allocateAll (env.scalarSizeOfType s.simdkind) (s.consttable, s.constoffset) es).1,
         { s with
           consttable :=
             (allocateAll (env.scalarSizeOfType s.simdkind) (s.consttable, s.constoffset) es).2.1
           constoffset :=
             (allocateAll (env.scalarSizeOfType s.simdkind) (s.consttable, s.constoffset) es).2.2
         }) := by
  induction es with
  | nil => intro s; rfl
  | cons e es ih =>
    intro s
    simp only [lookup_constants, allocateAll, ih, lookup_constant_offset_eq_allocate]

/-- A run of lookups from empty tables, in closed form. -/
theorem allocateAll_fresh (size : Int) (es : List String) :
    allocateAll size ([], 0) es
      = (es.map (fun e => wrapInt ((((firstSeen es).indexOf e : Nat) : Int) * size)),
         (layoutFrom size 0 (firstSeen es), wrapInt (((firstSeen es).length : Int) * size))) := by
  have h := allocateAll_layout size es []
  simp only [noteSeen_foldl_nil, layoutFrom, List.length_nil, Nat.cast_zero, zero_mul,
    wrapInt_zero] at h
  exact h

/-- The state a run of constant lookups leaves from a fresh assembler, whatever its
length: every offset is a multiple of the scalar size reduced to the range of `int`. -/
theorem lookup_constants_fresh (env : Env) (es : List String) :
    lookup_constants env (Assembler.fresh env) es
      = (es.map (fun e => wrapInt ((((firstSeen es).indexOf e : Nat) : Int)
            * env.scalarSizeOfType env.xmmps)),
         { Assembler.fresh env with
           consttable := layoutFrom (env.scalarSizeOfType env.xmmps) 0 (firstSeen es)
           constoffset := wrapInt (((firstSeen es).length : Int)
             * env.scalarSizeOfType env.xmmps) }) := by
  have hrun := lookup_constants_eq_allocateAll env es (Assembler.fresh env)
  simp only [Assembler.fresh, allocateAll_fresh] at hrun
  exact hrun

/-- Multiples of the size up to one that lies in the range of `int` are not reduced. -/
theorem wrapInt_mul_of_le (size : Int) (n k : Nat) (hk : k ≤ n)
    (h : inIntRange ((n : Int) * size)) : wrapInt ((k : Int) * size) = (k : Int) * size := by
  apply wrapInt_of_inIntRange
  unfold inIntRange at h ⊢
  have hkn : (k : Int) ≤ (n : Int) := by exact_mod_cast hk
  have hk0 : (0 : Int) ≤ (k : Int) := by exact_mod_cast Nat.zero_le k
  rcases le_or_lt 0 size with hs | hs
  · have h1 := mul_le_mul_of_nonneg_right hkn hs
    have h2 := mul_nonneg hk0 hs
    constructor <;> linarith
  · have h1 := mul_le_mul_of_nonpos_right hkn (le_of_lt hs)
    have h2 := mul_nonpos_of_nonneg_of_nonpos hk0 (le_of_lt hs)
    constructor <;> linarith

/-- Offsets in first-seen order are exact multiples when the last one is in range. -/
theorem offsets_exact (size : Int) (refs : List String)
    (h : inIntRange (((firstSeen refs).length : Int) * size)) :
    refs.map (fun x => wrapInt ((((firstSeen refs).indexOf x : Nat) : Int) * size))
      = refs.map (fun x => (((firstSeen refs).indexOf x : Nat) : Int) * size) := by
  apply List.map_congr_left
  intro x _
  exact wrapInt_mul_of_le size _ _ List.indexOf_le_length h

theorem values_exact (size : Int) (n : Nat) (h : inIntRange ((n : Int) * size)) :
    (List.range n).map (fun i => wrapInt (((0 + i : Nat) : Int) * size))
      = (List.range n).map (fun (k : Nat) => (k : Int) * size) := by
  apply List.map_congr_left
  intro i hi
  rw [Nat.zero_add]
  exact wrapInt_mul_of_le size n i (le_of_lt (List.mem_range.1 hi)) h

theorem pairwise_lt_range_mul (size : Int) (h : 0 < size) (n : Nat) :
    ((List.range n).map (fun (k : Nat) => (k : Int) * size)).Pairwise (fun a b => a < b) := by
  rw [List.pairwise_map]
  refine (List.pairwise_lt_range n).imp ?_
  intro a b hab
  have : (a : Int) < b := by exact_mod_cast hab
  exact mul_lt_mul_of_pos_right this h

/-- C4 (amended): starting from a fresh `Assembler`, for every sequence `es` of
`lookup_constant_offset` calls for which the scalar size times the number of distinct
strings stays in the range of the 32-bit `int` that `constoffset` is, the call on a string
returns `k * scalarSizeOfType(simdkind)` where `k` (from 0) is the position of the string
among the distinct strings in first-seen order; the table holds exactly these strings, at
the offsets `0, size, 2 * size, ...`; `constoffset` is the scalar size times the number of
table entries; and for a positive scalar size the offsets strictly increase in first-seen
order and distinct strings get distinct offsets. -/
theorem C4_constant_offsets_in_first_seen_order (env : Env) (es : List String)
    (hrange : inIntRange (((firstSeen es).length : Int) * env.scalarSizeOfType env.xmmps)) :
    (lookup_constants env (Assembler.fresh env) es).1
        = es.map (fun e => (((firstSeen es).indexOf e : Nat) : Int)
            * env.scalarSizeOfType env.xmmps)
      ∧ (lookup_constants env (Assembler.fresh env) es).2.consttable.map Prod.fst
        = firstSeen es
      ∧ (lookup_constants env (Assembler.fresh env) es).2.consttable.map Prod.snd
        = (List.range (firstSeen es).length).map
            (fun (k : Nat) => (k : Int) * env.scalarSizeOfType env.xmmps)
      ∧ (lookup_constants env (Assembler.fresh env) es).2.constoffset
        = env.scalarSizeOfType env.xmmps
            * ((lookup_constants env (Assembler.fresh env) es).2.consttable.length : Int)
      ∧ (0 < env.scalarSizeOfType env.xmmps →
          ((lookup_constants env (Assembler.fresh env) es).2.consttable.map
              Prod.snd).Pairwise (fun a b => a < b)
          ∧ ∀ a ∈ es, ∀ b ∈ es, a ≠ b →
              (((firstSeen es).indexOf a : Nat) : Int) * env.scalarSizeOfType env.xmmps
                ≠ (((firstSeen es).indexOf b : Nat) : Int) * env.scalarSizeOfType env.xmmps) := by
  rw [lookup_constants_fresh]
  simp only [layoutFrom_keys, layoutFrom_values, layoutFrom_length, offsets_exact _ _ hrange,
    values_exact _ _ hrange, wrapInt_of_inIntRange _ hrange, true_and]
  refine ⟨by ring, fun hpos => ⟨pairwise_lt_range_mul _ hpos _, ?_⟩⟩
  intro a ha b hb hab heq
  have hsz : env.scalarSizeOfType env.xmmps ≠ 0 := ne_of_gt hpos
  have hidx : (firstSeen es).indexOf a = (firstSeen es).indexOf b := by
    exact_mod_cast mul_right_cancel₀ hsz heq
  exact hab ((List.indexOf_inj ((mem_firstSeen es a).2 ha) ((mem_firstSeen es b).2 hb)).1 hidx)

/-- C4, instance: the lookups `a`, `b`, `a`, `c`, `b` with the 4-byte scalar. -/
theorem C4_constant_offsets_in_first_seen_order_witness :
    (lookup_constants refEnv (Assembler.fresh refEnv) ["a", "b", "a", "c", "b"]).1
        = [0, 4, 0, 8, 4]
      ∧ ((lookup_constants refEnv (Assembler.fresh refEnv)
            ["a", "b", "a", "c", "b"]).2.consttable.map Prod.snd).Pairwise
          (fun a b => a < b) :=
  ⟨by decide,
   ((C4_constant_offsets_in_first_seen_order refEnv ["a", "b", "a", "c", "b"]
      ⟨by decide, by decide⟩).2.2.2.2 (by decide)).1⟩

theorem firstSeen_of_nodup (l : List String) (h : l.Nodup) : firstSeen l = l := by
  induction l with
  | nil => rfl
  | cons e es ih =>
    rw [List.nodup_cons] at h
    rw [firstSeen, ih h.2, List.filter_eq_self.2]
    intro x hx
    have : x ≠ e := fun hxe => h.1 (hxe ▸ hx)
    simpa using this

theorem map_digitChar_injective : ∀ l1 l2 : List Nat, (∀ d ∈ l1, d < 2) → (∀ d ∈ l2, d < 2) →
    l1.map digitChar = l2.map digitChar → l1 = l2 := by
  intro l1
  induction l1 with
  | nil =>
    intro l2 _ _ h
    cases l2 with
    | nil => rfl
    | cons b l2 => simp at h
  | cons a l1 ih =>
    intro l2 h1 h2 h
    cases l2 with
    | nil => simp at h
    | cons b l2 =>
      simp only [List.map_cons, List.cons.injEq] at h
      have ha := h1 a (by simp)
      have hb := h2 b (by simp)
      have hab : a = b := by
        have hd := h.1
        unfold digitChar at hd
        interval_cases a <;> interval_cases b <;> simp_all
      rw [hab, ih l2 (fun d hd => h1 d (List.mem_cons_of_mem _ hd))
        (fun d hd => h2 d (List.mem_cons_of_mem _ hd)) h.2]

theorem distinctName_injective : Function.Injective distinctName := by
  intro i j hij
  have h : nameChars i = nameChars j := congrArg String.data hij
  have hd := map_digitChar_injective _ _
    (fun d hd => Nat.digits_lt_base (by decide) hd)
    (fun d hd => Nat.digits_lt_base (by decide) hd) h
  have := Nat.digits_inj_iff.1 hd
  omega

theorem not_mem_nameChars (c : Char) (ha : c ≠ 'a') (hb : c ≠ 'b') (i : Nat) :
    c ∉ nameChars i := by
  intro hc
  obtain ⟨d, -, hd⟩ := List.mem_map.1 hc
  unfold digitChar at hd
  by_cases h0 : d = 0
  · rw [if_pos h0] at hd
    exact ha hd.symm
  · rw [if_neg h0] at hd
    exact hb hd.symm

theorem nodup_distinctNames (n : Nat) : (distinctNames n).Nodup :=
  (List.nodup_range n).map distinctName_injective

theorem distinctNames_succ (n : Nat) :
    distinctNames (n + 1) = distinctNames n ++ [distinctName n] := by
  simp [distinctNames, List.range_succ]

theorem length_distinctNames (n : Nat) : (distinctNames n).length = n := by
  simp [distinctNames]

/-- Among the first `n + 1` names, taken in first-seen order, the last one has position
`n`. -/
theorem indexOf_last_distinctName (n : Nat) :
    (firstSeen (distinctNames (n + 1))).indexOf (distinctName n) = n := by
  have hnd := nodup_distinctNames (n + 1)
  rw [firstSeen_of_nodup _ hnd]
  rw [distinctNames_succ] at hnd ⊢
  have hnot : distinctName n ∉ distinctNames n := by
    intro hmem
    have := (List.nodup_append.1 hnd).2.2 hmem (List.mem_singleton_self _)
    exact this
  rw [List.indexOf_append_of_not_mem hnot, List.indexOf_cons_self, length_distinctNames]
  rfl

/-- The offset the last of `n` distinct strings is given: position `n - 1` times the
scalar size, reduced to the range of `int`. -/
theorem lookup_constants_last (env : Env) (n : Nat) (hn : 0 < n) :
    (lookup_constants env (Assembler.fresh env) (distinctNames n)).1.getLast?
      = some (wrapInt (((n - 1 : Nat) : Int) * env.scalarSizeOfType env.xmmps)) := by
  obtain ⟨m, rfl⟩ : ∃ m, n = m + 1 := ⟨n - 1, by omega⟩
  rw [lookup_constants_fresh, List.getLast?_map]
  rw [distinctNames_succ, List.getLast?_concat, ← distinctNames_succ, Option.map_some',
    indexOf_last_distinctName, Nat.add_sub_cancel]

/-- The offset the claim gives the last of `n` distinct strings: position `n - 1` times
the size. -/
theorem claimed_offset_last (size : Int) (n : Nat) (hn : 0 < n) :
    ((distinctNames n).map (fun e =>
        (((firstSeen (distinctNames n)).indexOf e : Nat) : Int) * size)).getLast?
      = some (((n - 1 : Nat) : Int) * size) := by
  obtain ⟨m, rfl⟩ : ∃ m, n = m + 1 := ⟨n - 1, by omega⟩
  rw [List.getLast?_map]
  rw [distinctNames_succ, List.getLast?_concat, ← distinctNames_succ, Option.map_some',
    indexOf_last_distinctName, Nat.add_sub_cancel]

/-- C4 (counterexample): with the 4-byte scalar of the default kind, after lookups of
536870913 distinct strings from a fresh assembler the last call returns -2147483648:
`constoffset` has reached `536870912 * 4 = 2147483648`, one past the largest `int`, and
wrapped. The claim gives that string the offset 2147483648, so the offsets returned are
not the multiples claimed. -/
theorem C4_offset_wraps_past_int_range :
    (lookup_constants refEnv (Assembler.fresh refEnv) (distinctNames 536870913)).1.getLast?
        = some (-2147483648)
      ∧ ((distinctNames 536870913).map (fun e =>
            (((firstSeen (distinctNames 536870913)).indexOf e : Nat) : Int)
              * refEnv.scalarSizeOfType refEnv.xmmps)).getLast? = some 2147483648
      ∧ (lookup_constants refEnv (Assembler.fresh refEnv) (distinctNames 536870913)).1
        ≠ (distinctNames 536870913).map (fun e =>
            (((firstSeen (distinctNames 536870913)).indexOf e : Nat) : Int)
              * refEnv.scalarSizeOfType refEnv.xmmps) := by
  have h1 := lookup_constants_last refEnv 536870913 (by decide)
  have h2 := claimed_offset_last (refEnv.scalarSizeOfType refEnv.xmmps) 536870913 (by decide)
  have e1 : wrapInt (((536870913 - 1 : Nat) : Int) * refEnv.scalarSizeOfType refEnv.xmmps)
      = -2147483648 := by decide
  have e2 : ((536870913 - 1 : Nat) : Int) * refEnv.scalarSizeOfType refEnv.xmmps
      = 2147483648 := by decide
  rw [e1] at h1
  rw [e2] at h2
  refine ⟨h1, h2, fun heq => ?_⟩
  rw [heq, h2] at h1
  exact absurd (Option.some.inj h1) (by decide)

/-! ## The lines `parse` accepts -/

theorem lookup_constant_offset_simdkind (env : Env) (s : Assembler) (e : String) :
    (lookup_constant_offset env s e).2.simdkind = s.simdkind := by
  unfold lookup_constant_offset
  cases s.consttable.find e <;> rfl

theorem lookup_symbol_offset_simdkind (env : Env) (s : Assembler) (e : String) :
    (lookup_symbol_offset env s e).2.simdkind = s.simdkind := by
  unfold lookup_symbol_offset
  cases s.symtable.find e <;> rfl

theorem parseBinary_ok (env : Env) (s s1 : Assembler) (linesep : List String) (op : opcode)
    (h : parseBinary env s linesep op = .ok s1) :
    ∃ m d l r rest, linesep = m :: d :: l :: r :: rest ∧
      s1 = s.emit (.addAvxBinaryOp s.simdkind op (env.from_string d) (env.from_string l)
        (env.from_string r)) := by
  rcases linesep with _ | ⟨m, _ | ⟨d, _ | ⟨l, _ | ⟨r, rest⟩⟩⟩⟩ <;>
    simp [parseBinary, ERROR_IF, tokenAt, bind, Except.bind, pure, Except.pure] at h
  rw [if_neg (by omega)] at h
  exact ⟨m, d, l, r, rest, rfl, (Except.ok.inj h).symm⟩

theorem LineStep.of_parseLine (env : Env) (s s1 : Assembler) (line : String)
    (h : parseLine env s line = .ok s1) : LineStep env s line s1 := by
  unfold parseLine at h
  by_cases hlen : line.length = 0
  · simp only [hlen, if_true, pure, Except.pure, Except.ok.injEq] at h
    subst h
    exact .blank hlen
  · simp only [hlen, if_false] at h
    rcases hs : env.split_str line ' ' with _ | ⟨cmd, rest⟩
    · simp [hs, ERROR_IF, bind, Except.bind] at h
    · simp only [hs] at h
      by_cases c1 : cmd = "ldi"
      · subst c1
        rcases rest with _ | ⟨d, _ | ⟨x, rest⟩⟩ <;>
          simp [ERROR_IF, tokenAt, bind, Except.bind, pure, Except.pure] at h
        rw [if_neg (by omega)] at h
        obtain rfl := Except.ok.inj h
        simpa [lookup_constant_offset_simdkind] using LineStep.ldi d x rest hlen hs
      by_cases c2 : cmd = "lds"
      · subst c2
        rcases rest with _ | ⟨d, _ | ⟨x, rest⟩⟩ <;>
          simp [ERROR_IF, tokenAt, bind, Except.bind, pure, Except.pure] at h
        rw [if_neg (by omega)] at h
        obtain rfl := Except.ok.inj h
        simpa [lookup_symbol_offset_simdkind, Assembler.emit] using
          LineStep.lds d x rest hlen hs
      by_cases c3 : cmd = "sts"
      · subst c3
        rcases rest with _ | ⟨d, _ | ⟨x, rest⟩⟩ <;>
          simp [ERROR_IF, tokenAt, bind, Except.bind, pure, Except.pure] at h
        rw [if_neg (by omega)] at h
        obtain rfl := Except.ok.inj h
        simpa [lookup_symbol_offset_simdkind, Assembler.emit] using
          LineStep.sts d x rest hlen hs
      by_cases c4 : cmd = "add"
      · subst c4
        simp [ERROR_IF, tokenAt, bind, Except.bind, pure, Except.pure] at h
        obtain ⟨m, d, l, r, rest1, hl, rfl⟩ := parseBinary_ok env s s1 _ _ h
        obtain ⟨rfl, rfl⟩ := List.cons.inj hl
        exact LineStep.binary _ .add d l r rest1 hlen (by simp [binaryOps]) hs
      by_cases c5 : cmd = "sub"
      · subst c5
        simp [ERROR_IF, tokenAt, bind, Except.bind, pure, Except.pure] at h
        obtain ⟨m, d, l, r, rest1, hl, rfl⟩ := parseBinary_ok env s s1 _ _ h
        obtain ⟨rfl, rfl⟩ := List.cons.inj hl
        exact LineStep.binary _ .sub d l r rest1 hlen (by simp [binaryOps]) hs
      by_cases c6 : cmd = "mul"
      · subst c6
        simp [ERROR_IF, tokenAt, bind, Except.bind, pure, Except.pure] at h
        obtain ⟨m, d, l, r, rest1, hl, rfl⟩ := parseBinary_ok env s s1 _ _ h
        obtain ⟨rfl, rfl⟩ := List.cons.inj hl
        exact LineStep.binary _ .mul d l r rest1 hlen (by simp [binaryOps]) hs
      by_cases c7 : cmd = "div"
      · subst c7
        simp [ERROR_IF, tokenAt, bind, Except.bind, pure, Except.pure] at h
        obtain ⟨m, d, l, r, rest1, hl, rfl⟩ := parseBinary_ok env s s1 _ _ h
        obtain ⟨rfl, rfl⟩ := List.cons.inj hl
        exact LineStep.binary _ .div d l r rest1 hlen (by simp [binaryOps]) hs
      by_cases c8 : cmd = "mov"
      · subst c8
        rcases rest with _ | ⟨d, _ | ⟨x, rest⟩⟩ <;>
          simp [ERROR_IF, tokenAt, bind, Except.bind, pure, Except.pure] at h
        rw [if_neg (by omega)] at h
        obtain rfl := Except.ok.inj h
        exact LineStep.mov d x rest hlen hs
      simp [ERROR_IF, tokenAt, bind, Except.bind, pure, Except.pure, c1, c2, c3, c4, c5, c6,
        c7, c8, throw, throwThe, MonadExceptOf.throw] at h

theorem parseLine_of_LineStep (env : Env) (s s1 : Assembler) (line : String)
    (h : LineStep env s line s1) : parseLine env s line = .ok s1 := by
  cases h with
  | blank h => simp [parseLine, h, pure, Except.pure]
  | ldi d x rest h hs =>
    simp [parseLine, h, hs, ERROR_IF, tokenAt, bind, Except.bind, pure, Except.pure,
      lookup_constant_offset_simdkind]
    rw [if_neg (by omega)]
  | lds d x rest h hs =>
    simp [parseLine, h, hs, ERROR_IF, tokenAt, bind, Except.bind, pure, Except.pure,
      lookup_symbol_offset_simdkind, Assembler.emit]
    rw [if_neg (by omega)]
  | sts d x rest h hs =>
    simp [parseLine, h, hs, ERROR_IF, tokenAt, bind, Except.bind, pure, Except.pure,
      lookup_symbol_offset_simdkind, Assembler.emit]
    rw [if_neg (by omega)]
  | binary m op d l r rest h hm hs =>
    simp only [binaryOps, List.mem_cons, Prod.mk.injEq, List.mem_singleton, List.mem_nil_iff,
      or_false] at hm
    rcases hm with ⟨rfl, rfl⟩ | ⟨rfl, rfl⟩ | ⟨rfl, rfl⟩ | ⟨rfl, rfl⟩ <;>
      simp [parseLine, parseBinary, h, hs, ERROR_IF, tokenAt, bind, Except.bind, pure,
        Except.pure] <;> rw [if_neg (by omega)]
  | mov d x rest h hs =>
    simp [parseLine, h, hs, ERROR_IF, tokenAt, bind, Except.bind, pure, Except.pure]
    rw [if_neg (by omega)]

/-- The loop body completes on a line exactly in the cases listed by `LineStep`. -/
theorem parseLine_ok_iff (env : Env) (s s1 : Assembler) (line : String) :
    parseLine env s line = .ok s1 ↔ LineStep env s line s1 :=
  ⟨LineStep.of_parseLine env s s1 line, parseLine_of_LineStep env s s1 line⟩

/-! ## C6 -/

/-- C6: for every assembler state `s`, register token `d` and symbol name `x`, a line
whose tokens are `lds d x` and a line whose tokens are `sts d x` both complete, and each
makes exactly two encoder calls in this order: `addRegularLoadOp(rax, {rdx, reg_imm8, off})`
with `off` the offset `lookup_symbol_offset` resolves for `x`, then
`addAvxMemoryOp(simdkind, op, d, rax)`. The states they leave are the state left by the
lookup with these two calls appended to the log, so the two lines agree on every call
argument and every table update, except that `op` is `loadu` for `lds` and `storeu` for
`sts`. -/
theorem C6_lds_sts_two_calls (env : Env) (s : Assembler) (d x : String) (rest : List String)
    (ldsLine stsLine : String) (hl : ldsLine.length ≠ 0) (hs : stsLine.length ≠ 0)
    (hlds : env.split_str ldsLine ' ' = "lds" :: d :: x :: rest)
    (hsts : env.split_str stsLine ' ' = "sts" :: d :: x :: rest) :
    parseLine env s ldsLine
        = .ok { lookup_symbol_offset env s x |>.2 with
            builder := s.builder ++
              [.addRegularLoadOp .rax ⟨.rdx, .reg_imm8, (lookup_symbol_offset env s x).1⟩,
               .addAvxMemoryOp s.simdkind .loadu (env.from_string d) .rax] }
      ∧ parseLine env s stsLine
        = .ok { lookup_symbol_offset env s x |>.2 with
            builder := s.builder ++
              [.addRegularLoadOp .rax ⟨.rdx, .reg_imm8, (lookup_symbol_offset env s x).1⟩,
               .addAvxMemoryOp s.simdkind .storeu (env.from_string d) .rax] } := by
  have hb : (lookup_symbol_offset env s x).2.builder = s.builder := by
    unfold lookup_symbol_offset
    cases s.symtable.find x <;> rfl
  constructor
  · rw [parseLine_of_LineStep env s _ ldsLine (.lds d x rest hl hlds)]
    simp [Assembler.emit, hb]
  · rw [parseLine_of_LineStep env s _ stsLine (.sts d x rest hs hsts)]
    simp [Assembler.emit, hb]

/-- C6, instance: the lines `lds 3 pos` and `sts 3 pos` on a fresh assembler. -/
theorem C6_lds_sts_two_calls_witness :
    parseLine refEnv (Assembler.fresh refEnv) "lds 3 pos"
        = .ok { lookup_symbol_offset refEnv (Assembler.fresh refEnv) "pos" |>.2 with
            builder := (Assembler.fresh refEnv).builder ++
              [.addRegularLoadOp .rax
                 ⟨.rdx, .reg_imm8, (lookup_symbol_offset refEnv (Assembler.fresh refEnv) "pos").1⟩,
               .addAvxMemoryOp (Assembler.fresh refEnv).simdkind .loadu
                 (refEnv.from_string "3") .rax] }
      ∧ parseLine refEnv (Assembler.fresh refEnv) "sts 3 pos"
        = .ok { lookup_symbol_offset refEnv (Assembler.fresh refEnv) "pos" |>.2 with
            builder := (Assembler.fresh refEnv).builder ++
              [.addRegularLoadOp .rax
                 ⟨.rdx, .reg_imm8, (lookup_symbol_offset refEnv (Assembler.fresh refEnv) "pos").1⟩,
               .addAvxMemoryOp (Assembler.fresh refEnv).simdkind .storeu
                 (refEnv.from_string "3") .rax] } :=
  C6_lds_sts_two_calls refEnv (Assembler.fresh refEnv) "3" "pos" [] "lds 3 pos" "sts 3 pos"
    (by decide) (by decide) (by decide) (by decide)

/-! ## C7 -/

/-- C7: for each mnemonic `m` of `add`, `sub`, `mul`, `div`, with opcode `op`, a line whose
tokens are `m d l r` completes from every state and makes exactly one encoder call,
`addAvxBinaryOp(simdkind, op, d, l, r)`, the registers being tokens 1, 2, 3 in this order,
and changes nothing else. And the program `ldi 0 2.0`, `ldi 1 3.0`, `add 2 0 1`,
`sts 2 out` makes, in order, the calls: broadcast-load of register 0 from `rcx + 0`,
broadcast-load of register 1 from `rcx + scalarSize`, `add` into register 2 of registers
0 and 1, load of `rax` from `rdx + 0`, `storeu` of register 2 through `rax`. -/
theorem C7_binary_one_call_and_arithmetic_program :
    (∀ (env : Env) (s : Assembler) (line m : String) (op : opcode) (d l r : String),
        line.length ≠ 0 → (m, op) ∈ binaryOps → env.split_str line ' ' = [m, d, l, r] →
        parseLine env s line
          = .ok { s with builder := s.builder ++
              [.addAvxBinaryOp s.simdkind op (env.from_string d) (env.from_string l)
                (env.from_string r)] })
      ∧ (∀ env : Env, env.split_str = refSplit → env.from_string = refFromString →
        (parse env (Assembler.fresh env) arithmeticProgram).map Assembler.builder
          = .ok [.addAvxBroadcastLoadOp env.xmmps 0 ⟨.rcx, .reg_imm8, 0⟩,
                 .addAvxBroadcastLoadOp env.xmmps 1
                   ⟨.rcx, .reg_imm8, env.scalarSizeOfType env.xmmps⟩,
                 .addAvxBinaryOp env.xmmps .add 2 0 1,
                 .addRegularLoadOp .rax ⟨.rdx, .reg_imm8, 0⟩,
                 .addAvxMemoryOp env.xmmps .storeu 2 .rax]) := by
  constructor
  · intro env s line m op d l r hlen hm hs
    exact parseLine_of_LineStep env s _ line (.binary m op d l r [] hlen hm hs)
  · intro env hsplit hfrom
    obtain ⟨sp, fs, sc, sz, xm, gr, hsc, hsz⟩ := env
    simp only at hsplit hfrom
    subst hsplit hfrom
    have h : (parse ⟨refSplit, refFromString, sc, sz, xm, gr, hsc, hsz⟩
        (Assembler.fresh ⟨refSplit, refFromString, sc, sz, xm, gr, hsc, hsz⟩)
          arithmeticProgram).map Assembler.builder
        = .ok [.addAvxBroadcastLoadOp xm 0 ⟨.rcx, .reg_imm8, 0⟩,
               .addAvxBroadcastLoadOp xm 1 ⟨.rcx, .reg_imm8, wrapInt (0 + sc xm)⟩,
               .addAvxBinaryOp xm .add 2 0 1,
               .addRegularLoadOp .rax ⟨.rdx, .reg_imm8, 0⟩,
               .addAvxMemoryOp xm .storeu 2 .rax] := rfl
    rw [h, zero_add, wrapInt_of_inIntRange _ (hsc xm)]

/-- C7, instance: the line `mul 2 0 1` on a fresh assembler, and the arithmetic program
under the reference environment, whose scalar size is 4. -/
theorem C7_binary_one_call_and_arithmetic_program_witness :
    parseLine refEnv (Assembler.fresh refEnv) "mul 2 0 1"
        = .ok { Assembler.fresh refEnv with builder := (Assembler.fresh refEnv).builder ++
            [.addAvxBinaryOp (Assembler.fresh refEnv).simdkind .mul (refEnv.from_string "2")
              (refEnv.from_string "0") (refEnv.from_string "1")] }
      ∧ (parse refEnv (Assembler.fresh refEnv) arithmeticProgram).map Assembler.builder
        = .ok [.addAvxBroadcastLoadOp refEnv.xmmps 0 ⟨.rcx, .reg_imm8, 0⟩,
               .addAvxBroadcastLoadOp refEnv.xmmps 1
                 ⟨.rcx, .reg_imm8, refEnv.scalarSizeOfType refEnv.xmmps⟩,
               .addAvxBinaryOp refEnv.xmmps .add 2 0 1,
               .addRegularLoadOp .rax ⟨.rdx, .reg_imm8, 0⟩,
               .addAvxMemoryOp refEnv.xmmps .storeu 2 .rax] :=
  ⟨C7_binary_one_call_and_arithmetic_program.1 refEnv (Assembler.fresh refEnv) "mul 2 0 1"
      "mul" .mul "2" "0" "1" (by decide) (by decide) (by decide),
   C7_binary_one_call_and_arithmetic_program.2 refEnv rfl rfl⟩

/-! ## C9 -/

theorem lookup_symbol_offset_find_mono (env : Env) (s : Assembler) (e key : String)
    (v : Int) (h : s.symtable.find key = some v) :
    (lookup_symbol_offset env s e).2.symtable.find key = some v := by
  unfold lookup_symbol_offset
  cases he : s.symtable.find e with
  | some w => simpa using h
  | none =>
    have hne : e ≠ key := by
      rintro rfl
      rw [he] at h
      cases h
    simpa [Table.find_assign_of_ne _ _ _ _ hne] using h

/-- A constant lookup touches neither the symbol table nor the encoder log. -/
theorem lookup_constant_offset_frame (env : Env) (s : Assembler) (e : String) :
    (lookup_constant_offset env s e).2.symtable = s.symtable
      ∧ (lookup_constant_offset env s e).2.symoffset = s.symoffset
      ∧ (lookup_constant_offset env s e).2.builder = s.builder := by
  unfold lookup_constant_offset
  cases s.consttable.find e <;> exact ⟨rfl, rfl, rfl⟩

/-- A symbol lookup touches neither the constant table nor the encoder log. -/
theorem lookup_symbol_offset_frame (env : Env) (s : Assembler) (e : String) :
    (lookup_symbol_offset env s e).2.consttable = s.consttable
      ∧ (lookup_symbol_offset env s e).2.constoffset = s.constoffset
      ∧ (lookup_symbol_offset env s e).2.builder = s.builder := by
  unfold lookup_symbol_offset
  cases s.symtable.find e <;> exact ⟨rfl, rfl, rfl⟩

/-- C9: when the loop body completes on a line, taking state `s` to `s1`: `simdkind` is
unchanged and every entry of `consttable` and of `symtable` is still there with the same
value (nothing is removed or overwritten); if the command is `add`, `sub`, `mul`, `div` or
`mov`, then `consttable`, `constoffset`, `symtable` and `symoffset` are all unchanged; if it
is `ldi`, `symtable` and `symoffset` are unchanged; if it is `lds` or `sts`, `consttable`
and `constoffset` are unchanged. -/
theorem C9_table_mutation_confined_to_lookups (env : Env) (s s1 : Assembler) (line : String)
    (h : parseLine env s line = .ok s1) :
    s1.simdkind = s.simdkind
      ∧ (∀ key v, s.consttable.find key = some v → s1.consttable.find key = some v)
      ∧ (∀ key v, s.symtable.find key = some v → s1.symtable.find key = some v)
      ∧ (∀ cmd rest, line.length ≠ 0 → env.split_str line ' ' = cmd :: rest →
          (cmd ∈ ["add", "sub", "mul", "div", "mov"] →
            s1.consttable = s.consttable ∧ s1.constoffset = s.constoffset
              ∧ s1.symtable = s.symtable ∧ s1.symoffset = s.symoffset)
          ∧ (cmd = "ldi" → s1.symtable = s.symtable ∧ s1.symoffset = s.symoffset)
          ∧ (cmd ∈ ["lds", "sts"] →
            s1.consttable = s.consttable ∧ s1.constoffset = s.constoffset)) := by
  have hstep := LineStep.of_parseLine env s s1 line h
  cases hstep with
  | blank hb =>
    refine ⟨rfl, fun _ _ h => h, fun _ _ h => h, ?_⟩
    intro cmd rest hlen
    exact absurd hb hlen
  | ldi d x rest hlen hs =>
    have hf := lookup_constant_offset_frame env s x
    refine ⟨by simp [Assembler.emit, lookup_constant_offset_simdkind],
      fun key v hk => by
        simpa [Assembler.emit] using lookup_constant_offset_find_mono env s x key v hk,
      fun key v hk => by simpa [Assembler.emit, hf.1] using hk, ?_⟩
    intro cmd rest1 _ hs1
    rw [hs] at hs1
    obtain ⟨rfl, -⟩ := List.cons.inj hs1
    exact ⟨(fun hc => absurd hc (by decide)), fun _ => ⟨hf.1, hf.2.1⟩, (fun hc => absurd hc (by decide))⟩
  | lds d x rest hlen hs =>
    have hf := lookup_symbol_offset_frame env s x
    refine ⟨by simp [Assembler.emit, lookup_symbol_offset_simdkind],
      fun key v hk => by simpa [Assembler.emit, hf.1] using hk,
      fun key v hk => by
        simpa [Assembler.emit] using lookup_symbol_offset_find_mono env s x key v hk, ?_⟩
    intro cmd rest1 _ hs1
    rw [hs] at hs1
    obtain ⟨rfl, -⟩ := List.cons.inj hs1
    exact ⟨(fun hc => absurd hc (by decide)), (fun hc => absurd hc (by decide)), fun _ => ⟨hf.1, hf.2.1⟩⟩
  | sts d x rest hlen hs =>
    have hf := lookup_symbol_offset_frame env s x
    refine ⟨by simp [Assembler.emit, lookup_symbol_offset_simdkind],
      fun key v hk => by simpa [Assembler.emit, hf.1] using hk,
      fun key v hk => by
        simpa [Assembler.emit] using lookup_symbol_offset_find_mono env s x key v hk, ?_⟩
    intro cmd rest1 _ hs1
    rw [hs] at hs1
    obtain ⟨rfl, -⟩ := List.cons.inj hs1
    exact ⟨(fun hc => absurd hc (by decide)), (fun hc => absurd hc (by decide)), fun _ => ⟨hf.1, hf.2.1⟩⟩
  | binary m op d l r rest hlen hm hs =>
    exact ⟨rfl, fun _ _ h => h, fun _ _ h => h, fun _ _ _ _ =>
      ⟨fun _ => ⟨rfl, rfl, rfl, rfl⟩, fun _ => ⟨rfl, rfl⟩, fun _ => ⟨rfl, rfl⟩⟩⟩
  | mov d x rest hlen hs =>
    exact ⟨rfl, fun _ _ h => h, fun _ _ h => h, fun _ _ _ _ =>
      ⟨fun _ => ⟨rfl, rfl, rfl, rfl⟩, fun _ => ⟨rfl, rfl⟩, fun _ => ⟨rfl, rfl⟩⟩⟩

/-- C9, instance: the line `ldi 0 2.0` on a fresh assembler allocates the constant and
leaves the symbol table alone. -/
theorem C9_table_mutation_confined_to_lookups_witness :
    parseLine refEnv (Assembler.fresh refEnv) "ldi 0 2.0"
        = .ok { simdkind := 0
                builder := [.addAvxBroadcastLoadOp 0 0 ⟨.rcx, .reg_imm8, 0⟩]
                symtable := []
                consttable := [("2.0", 0)]
                constoffset := 4
                symoffset := 0 }
      ∧ ((0 : Int) = (Assembler.fresh refEnv).simdkind
        ∧ (∀ key v, (Assembler.fresh refEnv).consttable.find key = some v →
            Table.find [("2.0", 0)] key = some v)
        ∧ (∀ key v, (Assembler.fresh refEnv).symtable.find key = some v →
            Table.find [] key = some v)
        ∧ (∀ cmd rest, "ldi 0 2.0".length ≠ 0 →
            refEnv.split_str "ldi 0 2.0" ' ' = cmd :: rest →
            (cmd ∈ ["add", "sub", "mul", "div", "mov"] →
              [("2.0", (0 : Int))] = (Assembler.fresh refEnv).consttable
                ∧ (4 : Int) = (Assembler.fresh refEnv).constoffset
                ∧ [] = (Assembler.fresh refEnv).symtable
                ∧ (0 : Int) = (Assembler.fresh refEnv).symoffset)
            ∧ (cmd = "ldi" → [] = (Assembler.fresh refEnv).symtable
                ∧ (0 : Int) = (Assembler.fresh refEnv).symoffset)
            ∧ (cmd ∈ ["lds", "sts"] →
              [("2.0", (0 : Int))] = (Assembler.fresh refEnv).consttable
                ∧ (4 : Int) = (Assembler.fresh refEnv).constoffset))) :=
  ⟨rfl, C9_table_mutation_confined_to_lookups refEnv (Assembler.fresh refEnv) _ "ldi 0 2.0" rfl⟩

/-! ## The loop over the lines -/

theorem parseLines_append (env : Env) (pre post : List String) :
    ∀ s, parseLines env s (pre ++ post)
      = (parseLines env s pre).bind (fun mid => parseLines env mid post) := by
  induction pre with
  | nil => intro s; rfl
  | cons l pre ih =>
    intro s
    simp only [List.cons_append, parseLines, bind, Except.bind]
    cases parseLine env s l with
    | error e => rfl
    | ok s1 => exact ih s1

theorem Assembler.emit_builder (s : Assembler) (c : Call) :
    (s.emit c).builder = s.builder ++ [c] := rfl

/-- The calls of a line that completes are appended to the log, and none is a return. -/
theorem parseLine_builder (env : Env) (s s1 : Assembler) (line : String)
    (h : parseLine env s line = .ok s1) :
    ∃ calls, s1.builder = s.builder ++ calls ∧ Call.addReturn ∉ calls := by
  have hc := lookup_constant_offset_frame env s
  have hy := lookup_symbol_offset_frame env s
  cases LineStep.of_parseLine env s s1 line h with
  | blank hb => exact ⟨[], by simp, by simp⟩
  | ldi d x rest hlen hs =>
    exact ⟨_, by rw [Assembler.emit_builder, (hc x).2.2], by simp⟩
  | lds d x rest hlen hs =>
    exact ⟨_, by rw [Assembler.emit_builder, Assembler.emit_builder, (hy x).2.2,
      List.append_assoc], by simp⟩
  | sts d x rest hlen hs =>
    exact ⟨_, by rw [Assembler.emit_builder, Assembler.emit_builder, (hy x).2.2,
      List.append_assoc], by simp⟩
  | binary m op d l r rest hlen hm hs => exact ⟨_, by rw [Assembler.emit_builder], by simp⟩
  | mov d x rest hlen hs => exact ⟨_, by rw [Assembler.emit_builder], by simp⟩

theorem parseLines_builder (env : Env) (lines : List String) :
    ∀ (s s1 : Assembler), parseLines env s lines = .ok s1 →
      ∃ calls, s1.builder = s.builder ++ calls ∧ Call.addReturn ∉ calls := by
  induction lines with
  | nil =>
    intro s s1 h
    obtain rfl := Except.ok.inj h
    exact ⟨[], by simp, by simp⟩
  | cons l lines ih =>
    intro s s1 h
    simp only [parseLines, bind, Except.bind] at h
    cases hl : parseLine env s l with
    | error e => simp [hl] at h
    | ok mid =>
      simp only [hl] at h
      obtain ⟨c1, h1, n1⟩ := parseLine_builder env s mid l hl
      obtain ⟨c2, h2, n2⟩ := ih mid s1 h
      exact ⟨c1 ++ c2, by simp [h2, h1], by simp [n1, n2]⟩

theorem parseLines_blank (env : Env) (lines : List String)
    (h : ∀ l ∈ lines, l.length = 0) : ∀ s, parseLines env s lines = .ok s := by
  induction lines with
  | nil => intro s; rfl
  | cons l lines ih =>
    intro s
    have hl : parseLine env s l = .ok s := by
      simp [parseLine, h l (by simp), pure, Except.pure]
    simp only [parseLines, bind, Except.bind, hl]
    exact ih (fun l1 h1 => h l1 (by simp [h1])) s

/-! ## C8 -/

/-- C8: for every program that `parse` accepts, leaving the state `s`: the calls the
builder has received when `assemble_program` returns are the calls made by `parse`
followed by one `addReturn`, which is the last call, and no return occurs among the calls
of `parse`; the calls are made in source-line order, that is, wherever the list of lines
is cut in two, the calls of the lines before the cut are an initial segment of the log
and the lines after the cut only append to it. And for a program all of whose lines are
empty, in particular one with no line at all, the calls are exactly the single return. -/
theorem C8_return_appended_last (env : Env) (lines : String) :
    (∀ s, parse env (Assembler.fresh env) lines = .ok s →
        assemble_program env lines
          = .ok (s.builder ++ [.addReturn], ⟨env.getResult (s.builder ++ [.addReturn])⟩)
        ∧ Call.addReturn ∉ s.builder
        ∧ (s.builder ++ [Call.addReturn]).getLast? = some .addReturn
        ∧ ∀ pre post, env.split_str lines '\n' = pre ++ post →
            ∃ mid later, parseLines env (Assembler.fresh env) pre = .ok mid
              ∧ parseLines env mid post = .ok s
              ∧ s.builder = mid.builder ++ later)
      ∧ ((∀ l ∈ env.split_str lines '\n', l.length = 0) →
          assemble_program env lines
            = .ok ([.addReturn], ⟨env.getResult [.addReturn]⟩)) := by
  constructor
  · intro s h
    refine ⟨by simp [assemble_program, h, bind, Except.bind, pure, Except.pure,
      Assembler.emit], ?_, by simp, ?_⟩
    · obtain ⟨calls, hc, hn⟩ := parseLines_builder env _ _ s h
      simpa [hc, Assembler.fresh] using hn
    · intro pre post hsplit
      unfold parse at h
      rw [hsplit, parseLines_append] at h
      cases hpre : parseLines env (Assembler.fresh env) pre with
      | error e => simp [hpre, Except.bind] at h
      | ok mid =>
        simp only [hpre, Except.bind] at h
        obtain ⟨later, hl, -⟩ := parseLines_builder env post mid s h
        exact ⟨mid, later, rfl, h, hl⟩
  · intro hblank
    have h := parseLines_blank env _ hblank (Assembler.fresh env)
    simp only [assemble_program, parse, h, bind, Except.bind, pure, Except.pure]
    rfl

/-- C8, instance: the arithmetic program, and the program with no instruction. -/
theorem C8_return_appended_last_witness :
    (assemble_program refEnv arithmeticProgram).map Prod.fst
        = .ok [.addAvxBroadcastLoadOp 0 0 ⟨.rcx, .reg_imm8, 0⟩,
               .addAvxBroadcastLoadOp 0 1 ⟨.rcx, .reg_imm8, 4⟩,
               .addAvxBinaryOp 0 .add 2 0 1,
               .addRegularLoadOp .rax ⟨.rdx, .reg_imm8, 0⟩,
               .addAvxMemoryOp 0 .storeu 2 .rax,
               .addReturn]
      ∧ assemble_program refEnv "\n\n" = .ok ([.addReturn], ⟨refEnv.getResult [.addReturn]⟩) := by
  refine ⟨?_, (C8_return_appended_last refEnv "\n\n").2 (by decide)⟩
  have h := ((C8_return_appended_last refEnv arithmeticProgram).1 _ rfl).1
  rw [h]
  rfl

/-! ## C2 -/

theorem parseLine_badCommand (env : Env) (s : Assembler) (line cmd : String)
    (rest : List String) (hlen : line.length ≠ 0) (htok : env.split_str line ' ' = cmd :: rest)
    (hcmd : cmd ∉ mnemonics) : parseLine env s line = .error (.badCommand cmd) := by
  simp only [mnemonics, List.mem_cons, List.mem_singleton, List.mem_nil_iff, or_false,
    not_or] at hcmd
  obtain ⟨c1, c2, c3, c4, c5, c6, c7, c8⟩ := hcmd
  simp [parseLine, hlen, htok, ERROR_IF, tokenAt, bind, Except.bind, c1, c2, c3, c4, c5, c6,
    c7, c8, throw, throwThe, MonadExceptOf.throw]

/-- C2: when the lines of a program are `pre`, then `line`, then `post`, the lines of `pre`
are all processed without error, and `line` is not empty and its first token `cmd` is not
exactly one of `ldi`, `lds`, `sts`, `add`, `sub`, `mul`, `div`, `mov`, then `parse` ends
with the fatal error `bad assembly command` naming `cmd`, and `assemble_program` ends
with the same error: it returns no `ExecutableInstance`. -/
theorem C2_unknown_opcode_is_fatal (env : Env) (lines : String) (pre post : List String)
    (line cmd : String) (rest : List String) (mid : Assembler)
    (hsplit : env.split_str lines '\n' = pre ++ line :: post)
    (hpre : parseLines env (Assembler.fresh env) pre = .ok mid)
    (hlen : line.length ≠ 0) (htok : env.split_str line ' ' = cmd :: rest)
    (hcmd : cmd ∉ mnemonics) :
    parse env (Assembler.fresh env) lines = .error (.badCommand cmd)
      ∧ assemble_program env lines = .error (.badCommand cmd) := by
  have hparse : parse env (Assembler.fresh env) lines = .error (.badCommand cmd) := by
    unfold parse
    rw [hsplit, parseLines_append, hpre]
    simp only [Except.bind, parseLines, bind, parseLine_badCommand env mid line cmd rest hlen
      htok hcmd]
  exact ⟨hparse, by simp [assemble_program, hparse, bind, Except.bind]⟩

/-- C2, instance: the upper-case `ADD` after a well-formed `ldi` line. -/
theorem C2_unknown_opcode_is_fatal_witness :
    parse refEnv (Assembler.fresh refEnv) "ldi 0 2.0\nADD 0 1 2\nsts 0 out"
        = .error (.badCommand "ADD")
      ∧ assemble_program refEnv "ldi 0 2.0\nADD 0 1 2\nsts 0 out"
        = .error (.badCommand "ADD") :=
  C2_unknown_opcode_is_fatal refEnv "ldi 0 2.0\nADD 0 1 2\nsts 0 out" ["ldi 0 2.0"]
    ["sts 0 out"] "ADD 0 1 2" "ADD" ["0", "1", "2"]
    { simdkind := 0
      builder := [.addAvxBroadcastLoadOp 0 0 ⟨.rcx, .reg_imm8, 0⟩]
      symtable := []
      consttable := [("2.0", 0)]
      constoffset := 4
      symoffset := 0 }
    (by decide) rfl (by decide) (by decide) (by decide)

/-! ## C1 -/

/-- C1 (what the code does): the token-count checks are one short. A line made of the
mnemonic `ldi`, `lds`, `sts` or `mov` and one operand passes `ERROR_IF(linesep.size() < 2)`
and then evaluates `linesep[2]` on two tokens; a line made of `add`, `sub`, `mul` or `div`
and two operands passes `ERROR_IF(linesep.size() < 3)` and then evaluates `linesep[3]` on
three tokens. Neither ends with the assertion error. -/
theorem C1_token_count_checks_one_short (env : Env) (s : Assembler) (line : String)
    (hlen : line.length ≠ 0) :
    (∀ m d, m ∈ twoOperandMnemonics → env.split_str line ' ' = [m, d] →
        parseLine env s line = .error (.outOfBounds 2 2))
      ∧ (∀ m op d l, (m, op) ∈ binaryOps → env.split_str line ' ' = [m, d, l] →
        parseLine env s line = .error (.outOfBounds 3 3)) := by
  constructor
  · intro m d hm hs
    simp only [twoOperandMnemonics, List.mem_cons, List.mem_singleton, List.mem_nil_iff,
      or_false] at hm
    rcases hm with rfl | rfl | rfl | rfl <;>
      simp [parseLine, hlen, hs, ERROR_IF, tokenAt, bind, Except.bind]
  · intro m op d l hm hs
    simp only [binaryOps, List.mem_cons, Prod.mk.injEq, List.mem_singleton, List.mem_nil_iff,
      or_false] at hm
    rcases hm with ⟨rfl, rfl⟩ | ⟨rfl, rfl⟩ | ⟨rfl, rfl⟩ | ⟨rfl, rfl⟩ <;>
      simp [parseLine, parseBinary, hlen, hs, ERROR_IF, tokenAt, bind, Except.bind]

/-- C1, instances: the lines `ldi 0` and `add 0 1`. -/
theorem C1_token_count_checks_one_short_witness :
    parseLine refEnv (Assembler.fresh refEnv) "ldi 0" = .error (.outOfBounds 2 2)
      ∧ parseLine refEnv (Assembler.fresh refEnv) "add 0 1" = .error (.outOfBounds 3 3) :=
  ⟨(C1_token_count_checks_one_short refEnv (Assembler.fresh refEnv) "ldi 0" (by decide)).1
      "ldi" "0" (by decide) (by decide),
   (C1_token_count_checks_one_short refEnv (Assembler.fresh refEnv) "add 0 1" (by decide)).2
      "add" .add "0" "1" (by decide) (by decide)⟩

/-! ## The tables over a whole pass -/

theorem allocateAll_append (size : Int) (xs ys : List String) :
    ∀ st, allocateAll size st (xs ++ ys)
      = ((allocateAll size st xs).1 ++ (allocateAll size (allocateAll size st xs).2 ys).1,
         (allocateAll size (allocateAll size st xs).2 ys).2) := by
  induction xs with
  | nil => intro st; rfl
  | cons x xs ih => intro st; simp [allocateAll, ih]

/-- One line, seen from the symbol table: the table and its offset change as by the
lookups of the symbol the line refers to, and the offsets resolved are the displacements
of the pointer loads appended to the log. -/
theorem parseLine_symbols (env : Env) (s s1 : Assembler) (line : String)
    (h : parseLine env s line = .ok s1) :
    s1.simdkind = s.simdkind
      ∧ (allocateAll (env.sizeOfType s.simdkind) (s.symtable, s.symoffset)
          (symbolRef env line).toList).2 = (s1.symtable, s1.symoffset)
      ∧ s1.builder.filterMap Call.symbolDisp
          = s.builder.filterMap Call.symbolDisp
            ++ (allocateAll (env.sizeOfType s.simdkind) (s.symtable, s.symoffset)
                (symbolRef env line).toList).1 := by
  have hc := lookup_constant_offset_frame env s
  cases LineStep.of_parseLine env s s1 line h with
  | blank hb => simp [symbolRef, hb, allocateAll]
  | ldi d x rest hlen hs =>
    simp [symbolRef, hlen, hs, allocateAll, Assembler.emit, (hc x).1, (hc x).2.1, (hc x).2.2,
      lookup_constant_offset_simdkind, Call.symbolDisp, List.filterMap_append]
  | lds d x rest hlen hs =>
    simp [symbolRef, hlen, hs, allocateAll, Assembler.emit, lookup_symbol_offset_eq_allocate,
      Call.symbolDisp, List.filterMap_append]
  | sts d x rest hlen hs =>
    simp [symbolRef, hlen, hs, allocateAll, Assembler.emit, lookup_symbol_offset_eq_allocate,
      Call.symbolDisp, List.filterMap_append]
  | binary m op d l r rest hlen hm hs =>
    simp only [binaryOps, List.mem_cons, Prod.mk.injEq, List.mem_singleton, List.mem_nil_iff,
      or_false] at hm
    rcases hm with ⟨rfl, rfl⟩ | ⟨rfl, rfl⟩ | ⟨rfl, rfl⟩ | ⟨rfl, rfl⟩ <;>
      simp [symbolRef, hlen, hs, allocateAll, Assembler.emit, Call.symbolDisp,
        List.filterMap_append]
  | mov d x rest hlen hs =>
    simp [symbolRef, hlen, hs, allocateAll, Assembler.emit, Call.symbolDisp,
      List.filterMap_append]

/-- One line, seen from the constant table. -/
theorem parseLine_constants (env : Env) (s s1 : Assembler) (line : String)
    (h : parseLine env s line = .ok s1) :
    (allocateAll (env.scalarSizeOfType s.simdkind) (s.consttable, s.constoffset)
          (constantRef env line).toList).2 = (s1.consttable, s1.constoffset)
      ∧ s1.builder.filterMap Call.constantDisp
          = s.builder.filterMap Call.constantDisp
            ++ (allocateAll (env.scalarSizeOfType s.simdkind) (s.consttable, s.constoffset)
                (constantRef env line).toList).1 := by
  have hy := lookup_symbol_offset_frame env s
  cases LineStep.of_parseLine env s s1 line h with
  | blank hb => simp [constantRef, hb, allocateAll]
  | ldi d x rest hlen hs =>
    simp [constantRef, hlen, hs, allocateAll, Assembler.emit,
      lookup_constant_offset_eq_allocate, Call.constantDisp, List.filterMap_append]
  | lds d x rest hlen hs =>
    simp [constantRef, hlen, hs, allocateAll, Assembler.emit, (hy x).1, (hy x).2.1,
      (hy x).2.2, Call.constantDisp, List.filterMap_append]
  | sts d x rest hlen hs =>
    simp [constantRef, hlen, hs, allocateAll, Assembler.emit, (hy x).1, (hy x).2.1,
      (hy x).2.2, Call.constantDisp, List.filterMap_append]
  | binary m op d l r rest hlen hm hs =>
    simp only [binaryOps, List.mem_cons, Prod.mk.injEq, List.mem_singleton, List.mem_nil_iff,
      or_false] at hm
    rcases hm with ⟨rfl, rfl⟩ | ⟨rfl, rfl⟩ | ⟨rfl, rfl⟩ | ⟨rfl, rfl⟩ <;>
      simp [constantRef, hlen, hs, allocateAll, Assembler.emit, Call.constantDisp,
        List.filterMap_append]
  | mov d x rest hlen hs =>
    simp [constantRef, hlen, hs, allocateAll, Assembler.emit, Call.constantDisp,
      List.filterMap_append]

theorem filterMap_cons_toList {α β : Type} (f : α → Option β) (a : α) (l : List α) :
    (a :: l).filterMap f = (f a).toList ++ l.filterMap f := by
  cases h : f a <;> simp [List.filterMap_cons, h]

/-- A run of lines, seen from the symbol table. -/
theorem parseLines_symbols (env : Env) (lines : List String) :
    ∀ (s s1 : Assembler), parseLines env s lines = .ok s1 →
      s1.simdkind = s.simdkind
        ∧ (allocateAll (env.sizeOfType s.simdkind) (s.symtable, s.symoffset)
            (lines.filterMap (symbolRef env))).2 = (s1.symtable, s1.symoffset)
        ∧ s1.builder.filterMap Call.symbolDisp
            = s.builder.filterMap Call.symbolDisp
              ++ (allocateAll (env.sizeOfType s.simdkind) (s.symtable, s.symoffset)
                  (lines.filterMap (symbolRef env))).1 := by
  induction lines with
  | nil =>
    intro s s1 h
    obtain rfl := Except.ok.inj h
    simp [allocateAll]
  | cons l lines ih =>
    intro s s1 h
    simp only [parseLines, bind, Except.bind] at h
    cases hl : parseLine env s l with
    | error e => simp [hl] at h
    | ok mid =>
      simp only [hl] at h
      obtain ⟨k1, t1, b1⟩ := parseLine_symbols env s mid l hl
      obtain ⟨k2, t2, b2⟩ := ih mid s1 h
      rw [k1, ← t1] at t2 b2
      rw [filterMap_cons_toList, allocateAll_append]
      exact ⟨k2.trans k1, t2, by rw [b2, b1, List.append_assoc]⟩

/-- A run of lines, seen from the constant table. -/
theorem parseLines_constants (env : Env) (lines : List String) :
    ∀ (s s1 : Assembler), parseLines env s lines = .ok s1 →
      (allocateAll (env.scalarSizeOfType s.simdkind) (s.consttable, s.constoffset)
            (lines.filterMap (constantRef env))).2 = (s1.consttable, s1.constoffset)
        ∧ s1.builder.filterMap Call.constantDisp
            = s.builder.filterMap Call.constantDisp
              ++ (allocateAll (env.scalarSizeOfType s.simdkind) (s.consttable, s.constoffset)
                  (lines.filterMap (constantRef env))).1 := by
  induction lines with
  | nil =>
    intro s s1 h
    obtain rfl := Except.ok.inj h
    simp [allocateAll]
  | cons l lines ih =>
    intro s s1 h
    simp only [parseLines, bind, Except.bind] at h
    cases hl : parseLine env s l with
    | error e => simp [hl] at h
    | ok mid =>
      simp only [hl] at h
      obtain ⟨k1, -, -⟩ := parseLine_symbols env s mid l hl
      obtain ⟨t1, b1⟩ := parseLine_constants env s mid l hl
      obtain ⟨t2, b2⟩ := ih mid s1 h
      rw [k1, ← t1] at t2 b2
      rw [filterMap_cons_toList, allocateAll_append]
      exact ⟨t2, by rw [b2, b1, List.append_assoc]⟩

/-- A whole pass from a fresh assembler: the symbol table and the displacements of the
pointer loads, in closed form. -/
theorem parse_symbols_fresh (env : Env) (lines : String) (s : Assembler)
    (h : parse env (Assembler.fresh env) lines = .ok s) :
    s.symtable = layoutFrom (env.sizeOfType env.xmmps) 0 (firstSeen (symbolRefs env lines))
      ∧ s.symoffset
          = wrapInt (((firstSeen (symbolRefs env lines)).length : Int)
              * env.sizeOfType env.xmmps)
      ∧ s.builder.filterMap Call.symbolDisp
          = (symbolRefs env lines).map (fun x =>
              wrapInt ((((firstSeen (symbolRefs env lines)).indexOf x : Nat) : Int)
                * env.sizeOfType env.xmmps)) := by
  obtain ⟨-, t, b⟩ := parseLines_symbols env _ _ s h
  simp only [Assembler.fresh, allocateAll_fresh, List.filterMap_nil, List.nil_append,
    Prod.mk.injEq] at t b
  exact ⟨t.1.symm, t.2.symm, b⟩

/-- A whole pass from a fresh assembler: the constant table and the displacements of the
broadcast loads, in closed form. -/
theorem parse_constants_fresh (env : Env) (lines : String) (s : Assembler)
    (h : parse env (Assembler.fresh env) lines = .ok s) :
    s.consttable
        = layoutFrom (env.scalarSizeOfType env.xmmps) 0 (firstSeen (constantRefs env lines))
      ∧ s.constoffset
          = wrapInt (((firstSeen (constantRefs env lines)).length : Int)
              * env.scalarSizeOfType env.xmmps)
      ∧ s.builder.filterMap Call.constantDisp
          = (constantRefs env lines).map (fun x =>
              wrapInt ((((firstSeen (constantRefs env lines)).indexOf x : Nat) : Int)
                * env.scalarSizeOfType env.xmmps)) := by
  obtain ⟨t, b⟩ := parseLines_constants env _ _ s h
  simp only [Assembler.fresh, allocateAll_fresh, List.filterMap_nil, List.nil_append,
    Prod.mk.injEq] at t b
  exact ⟨t.1.symm, t.2.symm, b⟩

/-! ## C5 -/

/-- C5 (amended): within one `parse` pass from a fresh assembler over a program that is
accepted and whose largest symbol offset, `sizeOfType(simdkind)` times the number of
distinct names less one, stays in the range of the 32-bit `int` that `symoffset` is,
the displacements of the pointer loads of the `lds` and `sts` lines, in textual order, are
`i * sizeOfType(simdkind)` for each symbol name `x` referred to, `i` (from 0) being the
position of `x` among the distinct names in order of first occurrence over the `lds` and
`sts` lines together, so that a name resolves to the same offset at every reference of
either opcode; the symbol table holds exactly these names at `0, size, 2 * size, ...`; for
a positive group size distinct names have distinct offsets; and a name that has no entry
yet is not rejected: from any state, an `lds` or `sts` line on it completes and enters it
at the current `symoffset`. -/
theorem C5_symbol_offsets_in_first_seen_order (env : Env) (lines : String) (s : Assembler)
    (h : parse env (Assembler.fresh env) lines = .ok s)
    (hrange : inIntRange ((((firstSeen (symbolRefs env lines)).length - 1 : Nat) : Int)
      * env.sizeOfType env.xmmps)) :
    s.builder.filterMap Call.symbolDisp
        = (symbolRefs env lines).map (fun x =>
            (((firstSeen (symbolRefs env lines)).indexOf x : Nat) : Int)
              * env.sizeOfType env.xmmps)
      ∧ s.symtable.map Prod.fst = firstSeen (symbolRefs env lines)
      ∧ s.symtable.map Prod.snd
        = (List.range (firstSeen (symbolRefs env lines)).length).map
            (fun (k : Nat) => (k : Int) * env.sizeOfType env.xmmps)
      ∧ (0 < env.sizeOfType env.xmmps →
          ∀ a ∈ symbolRefs env lines, ∀ b ∈ symbolRefs env lines, a ≠ b →
            (((firstSeen (symbolRefs env lines)).indexOf a : Nat) : Int)
                * env.sizeOfType env.xmmps
              ≠ (((firstSeen (symbolRefs env lines)).indexOf b : Nat) : Int)
                * env.sizeOfType env.xmmps)
      ∧ (∀ (st : Assembler) (line cmd d x : String) (rest : List String),
          line.length ≠ 0 → cmd ∈ ["lds", "sts"] →
          env.split_str line ' ' = cmd :: d :: x :: rest → st.symtable.find x = none →
          ∃ st1, parseLine env st line = .ok st1
            ∧ st1.symtable.find x = some st.symoffset) := by
  obtain ⟨ht, -, hb⟩ := parse_symbols_fresh env lines s h
  refine ⟨?_, by rw [ht, layoutFrom_keys], ?_, ?_, ?_⟩
  · rw [hb]
    apply List.map_congr_left
    intro x hx
    have hlt : (firstSeen (symbolRefs env lines)).indexOf x
        < (firstSeen (symbolRefs env lines)).length :=
      List.indexOf_lt_length.2 ((mem_firstSeen _ x).2 hx)
    exact wrapInt_mul_of_le _ _ _ (Nat.le_sub_one_of_lt hlt) hrange
  · rw [ht, layoutFrom_values]
    apply List.map_congr_left
    intro i hi
    rw [Nat.zero_add]
    exact wrapInt_mul_of_le _ _ _ (Nat.le_sub_one_of_lt (List.mem_range.1 hi)) hrange
  · intro hpos a ha b hb hab heq
    have hidx : (firstSeen (symbolRefs env lines)).indexOf a
        = (firstSeen (symbolRefs env lines)).indexOf b := by
      exact_mod_cast mul_right_cancel₀ (ne_of_gt hpos) heq
    exact hab ((List.indexOf_inj ((mem_firstSeen _ a).2 ha) ((mem_firstSeen _ b).2 hb)).1 hidx)
  · intro st line cmd d x rest hlen hcmd hs hfind
    have hlook : (lookup_symbol_offset env st x).2.symtable.find x = some st.symoffset := by
      simp [lookup_symbol_offset, hfind, Table.find_assign_self]
    simp only [List.mem_cons, List.mem_singleton, List.mem_nil_iff, or_false] at hcmd
    rcases hcmd with rfl | rfl
    · exact ⟨_, parseLine_of_LineStep env st _ line (.lds d x rest hlen hs), hlook⟩
    · exact ⟨_, parseLine_of_LineStep env st _ line (.sts d x rest hlen hs), hlook⟩

/-- C5, instance: `x`, `y`, `x` resolve to 0, 16, 0 under the 16-byte vector group. -/
theorem C5_symbol_offsets_in_first_seen_order_witness :
    (parse refEnv (Assembler.fresh refEnv) loadStoreProgram).map
        (fun s => s.builder.filterMap Call.symbolDisp) = .ok [0, 16, 0]
      ∧ (parse refEnv (Assembler.fresh refEnv) loadStoreProgram).map Assembler.symtable
        = .ok [("x", 0), ("y", 16)]
      ∧ ((0 : Int) < refEnv.sizeOfType refEnv.xmmps →
          ∀ a ∈ symbolRefs refEnv loadStoreProgram, ∀ b ∈ symbolRefs refEnv loadStoreProgram,
            a ≠ b →
            (((firstSeen (symbolRefs refEnv loadStoreProgram)).indexOf a : Nat) : Int)
                * refEnv.sizeOfType refEnv.xmmps
              ≠ (((firstSeen (symbolRefs refEnv loadStoreProgram)).indexOf b : Nat) : Int)
                * refEnv.sizeOfType refEnv.xmmps) :=
  ⟨rfl, rfl,
   (C5_symbol_offsets_in_first_seen_order refEnv loadStoreProgram
      { simdkind := 0
        builder := [.addRegularLoadOp .rax ⟨.rdx, .reg_imm8, 0⟩,
                    .addAvxMemoryOp 0 .loadu 0 .rax,
                    .addRegularLoadOp .rax ⟨.rdx, .reg_imm8, 16⟩,
                    .addAvxMemoryOp 0 .loadu 1 .rax,
                    .addAvxBinaryOp 0 .add 0 0 1,
                    .addRegularLoadOp .rax ⟨.rdx, .reg_imm8, 0⟩,
                    .addAvxMemoryOp 0 .storeu 0 .rax]
        symtable := [("x", 0), ("y", 16)]
        consttable := []
        constoffset := 0
        symoffset := 32 } rfl ⟨by decide, by decide⟩).2.2.2.1⟩

theorem splitChars_append (d : Char) (l : List Char) (h : d ∉ l) :
    ∀ rest cur, splitChars d (l ++ rest) cur = splitChars d rest (l.reverse ++ cur) := by
  induction l with
  | nil => intro rest cur; rfl
  | cons c l ih =>
    intro rest cur
    have hc : c ≠ d := fun hcd => h (by simp [hcd])
    have hl : d ∉ l := fun hd => h (by simp [hd])
    rw [List.cons_append, splitChars, if_neg hc, ih hl]
    simp

theorem splitChars_of_not_mem (d : Char) (l : List Char) (h : d ∉ l) :
    splitChars d l [] = [String.mk l] := by
  have := splitChars_append d l h [] []
  simpa [splitChars] using this

/-- Cutting a text at its line breaks gives back the lines it was joined from. -/
theorem splitChars_joinLines (ls : List (List Char)) :
    ∀ l, (∀ x ∈ l :: ls, '\n' ∉ x) →
      splitChars '\n' (joinLines (l :: ls)) [] = (l :: ls).map String.mk := by
  induction ls with
  | nil =>
    intro l h
    simpa [joinLines] using splitChars_of_not_mem '\n' l (h l (by simp))
  | cons l2 ls ih =>
    intro l h
    rw [joinLines, splitChars_append '\n' l (h l (by simp)), splitChars, if_pos rfl,
      ih l2 (fun x hx => h x (List.mem_cons_of_mem _ hx))]
    simp

theorem not_mem_loadLine (i : Nat) : '\n' ∉ loadLine i := by
  simp only [loadLine, List.mem_cons, not_or]
  exact ⟨by decide, by decide, by decide, by decide, by decide, by decide,
    not_mem_nameChars '\n' (by decide) (by decide) i⟩

theorem refSplit_loadLine (i : Nat) :
    refEnv.split_str (String.mk (loadLine i)) ' ' = ["lds", "0", distinctName i] := by
  have h : ' ' ∉ nameChars i := not_mem_nameChars ' ' (by decide) (by decide) i
  have h1 : ∀ r : List Char,
      splitChars ' ' ('l' :: 'd' :: 's' :: ' ' :: '0' :: ' ' :: r) []
        = "lds" :: "0" :: splitChars ' ' r [] := fun _ => rfl
  show splitChars ' ' (loadLine i) [] = _
  rw [loadLine, h1, splitChars_of_not_mem ' ' _ h]
  rfl

theorem refSplit_manyLoads (n : Nat) (hn : 0 < n) :
    refEnv.split_str (manyLoads n) '\n'
      = (List.range n).map (fun i => String.mk (loadLine i)) := by
  obtain ⟨m, rfl⟩ : ∃ m, n = m + 1 := ⟨n - 1, by omega⟩
  show splitChars '\n' (joinLines ((List.range (m + 1)).map loadLine)) [] = _
  rw [List.range_succ_eq_map, List.map_cons]
  rw [splitChars_joinLines]
  · simp [List.map_map, Function.comp]
  · intro x hx
    rcases List.mem_cons.1 hx with rfl | hx
    · exact not_mem_loadLine 0
    · obtain ⟨j, -, rfl⟩ := List.mem_map.1 hx
      exact not_mem_loadLine _

theorem symbolRef_loadLine (i : Nat) :
    symbolRef refEnv (String.mk (loadLine i)) = some (distinctName i) := by
  have hlen : (String.mk (loadLine i)).length ≠ 0 := by
    simp [String.length, loadLine]
  unfold symbolRef
  rw [if_neg hlen, refSplit_loadLine]
  simp

theorem symbolRefs_manyLoads (n : Nat) (hn : 0 < n) :
    symbolRefs refEnv (manyLoads n) = distinctNames n := by
  rw [symbolRefs, refSplit_manyLoads n hn, List.filterMap_map, distinctNames,
    ← List.filterMap_eq_map]
  apply List.filterMap_congr
  intro i _
  exact symbolRef_loadLine i

/-- A run of well-formed `lds` lines is accepted from every state. -/
theorem parseLines_lds (env : Env) (lines : List String)
    (h : ∀ l ∈ lines, l.length ≠ 0 ∧ ∃ d x rest, env.split_str l ' ' = "lds" :: d :: x :: rest) :
    ∀ s, ∃ s1, parseLines env s lines = .ok s1 := by
  induction lines with
  | nil => intro s; exact ⟨s, rfl⟩
  | cons l lines ih =>
    intro s
    obtain ⟨hlen, d, x, rest, hs⟩ := h l (by simp)
    have hl := parseLine_of_LineStep env s _ l (.lds d x rest hlen hs)
    obtain ⟨s1, h1⟩ := ih (fun l1 h1 => h l1 (List.mem_cons_of_mem _ h1)) _
    refine ⟨s1, ?_⟩
    rw [parseLines, hl]
    exact h1

theorem parse_manyLoads (n : Nat) (hn : 0 < n) :
    ∃ s, parse refEnv (Assembler.fresh refEnv) (manyLoads n) = .ok s := by
  unfold parse
  rw [refSplit_manyLoads n hn]
  apply parseLines_lds
  intro l hl
  obtain ⟨i, -, rfl⟩ := List.mem_map.1 hl
  exact ⟨by simp [String.length, loadLine], "0", distinctName i, [], refSplit_loadLine i⟩

/-- The displacement of the last pointer load of the program of `n` loads: position
`n - 1` times the group size, reduced to the range of `int`. -/
theorem manyLoads_last (n : Nat) (hn : 0 < n) (s : Assembler)
    (h : parse refEnv (Assembler.fresh refEnv) (manyLoads n) = .ok s) :
    (s.builder.filterMap Call.symbolDisp).getLast?
      = some (wrapInt (((n - 1 : Nat) : Int) * refEnv.sizeOfType refEnv.xmmps)) := by
  obtain ⟨-, -, hb⟩ := parse_symbols_fresh refEnv (manyLoads n) s h
  rw [hb, symbolRefs_manyLoads n hn, List.getLast?_map]
  obtain ⟨m, rfl⟩ : ∃ m, n = m + 1 := ⟨n - 1, by omega⟩
  rw [distinctNames_succ, List.getLast?_concat, ← distinctNames_succ, Option.map_some',
    indexOf_last_distinctName, Nat.add_sub_cancel]

/-- C5 (counterexample): with the 16-byte vector group of the default kind, the program
of 134217729 `lds` lines on distinct names is accepted, and the displacement resolved for
the last name is -2147483648: `symoffset` has reached `134217728 * 16 = 2147483648`, one
past the largest `int`, and wrapped. The claim gives that name the offset 2147483648. -/
theorem C5_symbol_offset_wraps_past_int_range :
    ∃ s, parse refEnv (Assembler.fresh refEnv) (manyLoads 134217729) = .ok s
      ∧ (s.builder.filterMap Call.symbolDisp).getLast? = some (-2147483648)
      ∧ ((symbolRefs refEnv (manyLoads 134217729)).map (fun x =>
            (((firstSeen (symbolRefs refEnv (manyLoads 134217729))).indexOf x : Nat) : Int)
              * refEnv.sizeOfType refEnv.xmmps)).getLast? = some 2147483648
      ∧ s.builder.filterMap Call.symbolDisp
        ≠ (symbolRefs refEnv (manyLoads 134217729)).map (fun x =>
            (((firstSeen (symbolRefs refEnv (manyLoads 134217729))).indexOf x : Nat) : Int)
              * refEnv.sizeOfType refEnv.xmmps) := by
  obtain ⟨s, hs⟩ := parse_manyLoads 134217729 (by decide)
  have h1 := manyLoads_last 134217729 (by decide) s hs
  have h2 := claimed_offset_last (refEnv.sizeOfType refEnv.xmmps) 134217729 (by decide)
  have e1 : wrapInt (((134217729 - 1 : Nat) : Int) * refEnv.sizeOfType refEnv.xmmps)
      = -2147483648 := by decide
  have e2 : ((134217729 - 1 : Nat) : Int) * refEnv.sizeOfType refEnv.xmmps
      = 2147483648 := by decide
  rw [e1] at h1
  rw [e2, ← symbolRefs_manyLoads 134217729 (by decide)] at h2
  refine ⟨s, hs, h1, h2, fun heq => ?_⟩
  rw [heq, h2] at h1
  exact absurd (Option.some.inj h1) (by decide)

/-! ## C10 -/

/-- The displacements of a log are those of its broadcast loads and of its pointer loads. -/
theorem imm8Disp_iff (c : Call) (d : Int) :
    c.imm8Disp = some d ↔ c.constantDisp = some d ∨ c.symbolDisp = some d := by
  cases c with
  | addAvxBroadcastLoadOp t v adr =>
    obtain ⟨a, f, i⟩ := adr
    cases f
    simp [Call.imm8Disp, Call.constantDisp, Call.symbolDisp]
  | addRegularLoadOp v adr =>
    obtain ⟨a, f, i⟩ := adr
    cases f
    simp [Call.imm8Disp, Call.constantDisp, Call.symbolDisp]
  | addAvxMemoryOp t op v adr => simp [Call.imm8Disp, Call.constantDisp, Call.symbolDisp]
  | addAvxBinaryOp t op d1 l r => simp [Call.imm8Disp, Call.constantDisp, Call.symbolDisp]
  | addAvxMoveOp d1 s1 => simp [Call.imm8Disp, Call.constantDisp, Call.symbolDisp]
  | addReturn => simp [Call.imm8Disp, Call.constantDisp, Call.symbolDisp]

/-- Offsets laid out in first-seen order all fit in a signed byte exactly when the last
one does. -/
theorem offsets_fit_iff (size : Int) (hsize : 0 ≤ size) (hint : inIntRange size)
    (refs : List String) :
    (∀ d ∈ refs.map (fun x => wrapInt ((((firstSeen refs).indexOf x : Nat) : Int) * size)),
        -128 ≤ d ∧ d ≤ 127)
      ↔ (((firstSeen refs).length - 1 : Nat) : Int) * size ≤ 127 := by
  constructor
  · intro hall
    by_contra hbig
    rw [not_le] at hbig
    obtain ⟨sN, rfl⟩ := Int.eq_ofNat_of_zero_le hsize
    have hbigN : 127 < ((firstSeen refs).length - 1) * sN := by exact_mod_cast hbig
    have hpos : 0 < sN := by
      rcases Nat.eq_zero_or_pos sN with h0 | h0
      · rw [h0] at hbigN
        simp at hbigN
      · exact h0
    have hk1 : 127 / sN < (firstSeen refs).length - 1 :=
      Nat.div_lt_of_lt_mul (by rwa [Nat.mul_comm] at hbigN)
    have hk : 127 / sN + 1 < (firstSeen refs).length := by
      generalize 127 / sN = q at hk1
      omega
    have hgt : 127 < (127 / sN + 1) * sN := by
      have := Nat.lt_mul_div_succ 127 hpos
      rwa [Nat.mul_comm] at this
    have hle : (127 / sN + 1) * sN ≤ 2147483647 := by
      rcases Nat.lt_or_ge 127 sN with hs | hs
      · rw [Nat.div_eq_of_lt hs]
        have h2 : ((sN : Nat) : Int) ≤ 2147483647 := hint.2
        have h3 : sN ≤ 2147483647 := by exact_mod_cast h2
        omega
      · have hq := Nat.div_mul_le_self 127 sN
        rw [Nat.add_mul, Nat.one_mul]
        generalize 127 / sN * sN = q at hq
        omega
    have hmem : (firstSeen refs)[127 / sN + 1] ∈ refs :=
      (mem_firstSeen refs _).1 (List.getElem_mem _)
    have hidx := List.indexOf_getElem (nodup_firstSeen refs) _ hk
    have hd := hall _ (List.mem_map.2 ⟨_, hmem, rfl⟩)
    rw [hidx] at hd
    have hrange : inIntRange (((127 / sN + 1 : Nat) : Int) * (sN : Int)) := by
      constructor
      · have : (0 : Int) ≤ ((127 / sN + 1 : Nat) : Int) * (sN : Int) := by positivity
        linarith
      · exact_mod_cast hle
    rw [wrapInt_of_inIntRange _ hrange] at hd
    have : (127 : Int) < ((127 / sN + 1 : Nat) : Int) * (sN : Int) := by exact_mod_cast hgt
    linarith [hd.2]
  · intro hlast d hd
    obtain ⟨x, hx, rfl⟩ := List.mem_map.1 hd
    have hlt : (firstSeen refs).indexOf x < (firstSeen refs).length :=
      List.indexOf_lt_length.2 ((mem_firstSeen refs x).2 hx)
    have hle : (((firstSeen refs).indexOf x : Nat) : Int)
        ≤ (((firstSeen refs).length - 1 : Nat) : Int) := by
      exact_mod_cast Nat.le_sub_one_of_lt hlt
    have h0 : (0 : Int) ≤ (((firstSeen refs).indexOf x : Nat) : Int) * size :=
      mul_nonneg (by exact_mod_cast Nat.zero_le _) hsize
    have h1 := mul_le_mul_of_nonneg_right hle hsize
    rw [wrapInt_of_inIntRange _ ⟨by linarith, by linarith⟩]
    constructor <;> linarith

/-- C10 (counterexample): under the default kind, with its 16-byte vector group, the
program of nine `lds` lines on nine distinct names is accepted, and the displacements it
hands to the encoder under `reg_imm8` are 0, 16, ..., 112, 128: the ninth does not fit in a
signed 8-bit immediate. -/
theorem C10_ninth_symbol_displacement_exceeds_imm8 :
    (parse refEnv (Assembler.fresh refEnv) nineSymbolProgram).map
        (fun s => s.builder.filterMap Call.imm8Disp)
        = .ok [0, 16, 32, 48, 64, 80, 96, 112, 128]
      ∧ ¬ (∀ s, parse refEnv (Assembler.fresh refEnv) nineSymbolProgram = .ok s →
            ∀ c ∈ s.builder, ∀ d, c.imm8Disp = some d → -128 ≤ d ∧ d ≤ 127) := by
  refine ⟨rfl, fun hall => ?_⟩
  have h := hall _ rfl (.addRegularLoadOp .rax ⟨.rdx, .reg_imm8, 128⟩) (by decide) 128 rfl
  exact absurd h.2 (by decide)

/-- C10 (amended): for every program that `parse` accepts from a fresh assembler, with
non-negative element sizes, every displacement handed to the encoder under `reg_imm8`
fits in a signed 8-bit immediate if and only if the last distinct constant and the last
distinct symbol do: `(number of distinct constants - 1) * scalarSizeOfType(simdkind) <= 127`
and `(number of distinct symbols - 1) * sizeOfType(simdkind) <= 127`. -/
theorem C10_displacements_fit_iff_few_names (env : Env) (lines : String) (s : Assembler)
    (h : parse env (Assembler.fresh env) lines = .ok s)
    (hscalar : 0 ≤ env.scalarSizeOfType env.xmmps) (hgroup : 0 ≤ env.sizeOfType env.xmmps) :
    (∀ c ∈ s.builder, ∀ d, c.imm8Disp = some d → -128 ≤ d ∧ d ≤ 127)
      ↔ (((firstSeen (constantRefs env lines)).length - 1 : Nat) : Int)
            * env.scalarSizeOfType env.xmmps ≤ 127
          ∧ (((firstSeen (symbolRefs env lines)).length - 1 : Nat) : Int)
            * env.sizeOfType env.xmmps ≤ 127 := by
  obtain ⟨-, -, hsym⟩ := parse_symbols_fresh env lines s h
  obtain ⟨-, -, hconst⟩ := parse_constants_fresh env lines s h
  rw [← offsets_fit_iff _ hscalar (env.scalarSizeOfType_int _),
    ← offsets_fit_iff _ hgroup (env.sizeOfType_int _), ← hsym, ← hconst]
  constructor
  · intro hall
    constructor
    · intro d hd
      obtain ⟨c, hc, hcd⟩ := List.mem_filterMap.1 hd
      exact hall c hc d ((imm8Disp_iff c d).2 (Or.inl hcd))
    · intro d hd
      obtain ⟨c, hc, hcd⟩ := List.mem_filterMap.1 hd
      exact hall c hc d ((imm8Disp_iff c d).2 (Or.inr hcd))
  · rintro ⟨hc, hs⟩ c hmem d hd
    rcases (imm8Disp_iff c d).1 hd with h1 | h1
    · exact hc d (List.mem_filterMap.2 ⟨c, hmem, h1⟩)
    · exact hs d (List.mem_filterMap.2 ⟨c, hmem, h1⟩)

/-- C10 (amended), instance: with eight distinct symbols and the 16-byte vector group the
last displacement is `7 * 16 = 112`, and all displacements fit. -/
theorem C10_displacements_fit_iff_few_names_witness :
    (parse refEnv (Assembler.fresh refEnv) eightSymbolProgram).map
        (fun s => s.builder.filterMap Call.imm8Disp)
        = .ok [0, 16, 32, 48, 64, 80, 96, 112]
      ∧ ((∀ c ∈ [Call.addRegularLoadOp .rax ⟨.rdx, .reg_imm8, 0⟩,
                 .addAvxMemoryOp 0 .loadu 0 .rax,
                 .addRegularLoadOp .rax ⟨.rdx, .reg_imm8, 16⟩,
                 .addAvxMemoryOp 0 .loadu 0 .rax,
                 .addRegularLoadOp .rax ⟨.rdx, .reg_imm8, 32⟩,
                 .addAvxMemoryOp 0 .loadu 0 .rax,
                 .addRegularLoadOp .rax ⟨.rdx, .reg_imm8, 48⟩,
                 .addAvxMemoryOp 0 .loadu 0 .rax,
                 .addRegularLoadOp .rax ⟨.rdx, .reg_imm8, 64⟩,
                 .addAvxMemoryOp 0 .loadu 0 .rax,
                 .addRegularLoadOp .rax ⟨.rdx, .reg_imm8, 80⟩,
                 .addAvxMemoryOp 0 .loadu 0 .rax,
                 .addRegularLoadOp .rax ⟨.rdx, .reg_imm8, 96⟩,
                 .addAvxMemoryOp 0 .loadu 0 .rax,
                 .addRegularLoadOp .rax ⟨.rdx, .reg_imm8, 112⟩,
                 .addAvxMemoryOp 0 .loadu 0 .rax],
            ∀ d, c.imm8Disp = some d → -128 ≤ d ∧ d ≤ 127)
          ↔ (((firstSeen (constantRefs refEnv eightSymbolProgram)).length - 1 : Nat) : Int)
                * refEnv.scalarSizeOfType refEnv.xmmps ≤ 127
              ∧ (((firstSeen (symbolRefs refEnv eightSymbolProgram)).length - 1 : Nat) : Int)
                * refEnv.sizeOfType refEnv.xmmps ≤ 127) :=
  ⟨rfl,
   C10_displacements_fit_iff_few_names refEnv eightSymbolProgram
     { simdkind := 0
       builder := [.addRegularLoadOp .rax ⟨.rdx, .reg_imm8, 0⟩,
                   .addAvxMemoryOp 0 .loadu 0 .rax,
                   .addRegularLoadOp .rax ⟨.rdx, .reg_imm8, 16⟩,
                   .addAvxMemoryOp 0 .loadu 0 .rax,
                   .addRegularLoadOp .rax ⟨.rdx, .reg_imm8, 32⟩,
                   .addAvxMemoryOp 0 .loadu 0 .rax,
                   .addRegularLoadOp .rax ⟨.rdx, .reg_imm8, 48⟩,
                   .addAvxMemoryOp 0 .loadu 0 .rax,
                   .addRegularLoadOp .rax ⟨.rdx, .reg_imm8, 64⟩,
                   .addAvxMemoryOp 0 .loadu 0 .rax,
                   .addRegularLoadOp .rax ⟨.rdx, .reg_imm8, 80⟩,
                   .addAvxMemoryOp 0 .loadu 0 .rax,
                   .addRegularLoadOp .rax ⟨.rdx, .reg_imm8, 96⟩,
                   .addAvxMemoryOp 0 .loadu 0 .rax,
                   .addRegularLoadOp .rax ⟨.rdx, .reg_imm8, 112⟩,
                   .addAvxMemoryOp 0 .loadu 0 .rax]
       symtable := [("a", 0), ("b", 16), ("c", 32), ("d", 48), ("e", 64), ("f", 80),
                    ("g", 96), ("h", 112)]
       consttable := []
       constoffset := 0
       symoffset := 128 } rfl (by decide) (by decide)⟩

end ZFX
